import Mathlib

/-!
Verification of the Compilation core (src/lib/Compilation.js) against its
natural-language specification.  Each numbered claim (C1..C10) gets a shallow
embedding of the relevant code, a theorem, and when needed a concrete witness
or counterexample.

Conventions of the embedding:
* JavaScript `Map`s and plain-object tables become association lists
  (`List (key × value)`) with `lookup`/`setAssoc`.
* Module identity (object identity in JS) becomes a `Nat` identity token when
  only identity matters, or a structure when field contents matter.
* `null`/`undefined` become `Option.none`; numeric fields that may be unset
  become `Option Nat`.
* Continuation-passing async code becomes explicit state-passing functions;
  the outcomes of external collaborators (module factories, `module.build`)
  become oracle parameters of the embedded function.
-/

/-- Error / warning objects carried on modules and the compilation.
Only the `message` is observable to the code under study. -/
structure WErr where
  message : String
deriving DecidableEq, Repr

/-- `map.set(k, v)` on a JS `Map` / object: replace the binding if the key is
present, otherwise append it. -/
def setAssoc {α β : Type} [DecidableEq α] (l : List (α × β)) (k : α) (v : β) :
    List (α × β) :=
  match l with
  | [] => [(k, v)]
  | (k', v') :: rest => if k' = k then (k, v) :: rest else (k', v') :: setAssoc rest k v

/-- `map.delete(k)` on a JS `Map`: drop the binding for `k`. -/
def removeAssoc {α β : Type} [DecidableEq α] (l : List (α × β)) (k : α) :
    List (α × β) :=
  match l with
  | [] => []
  | (k', v') :: rest => if k' = k then rest else (k', v') :: removeAssoc rest k

/-! ## C3 — `addModule` (ModuleStore) -/

/-- The slice of the external `Module` interface that `addModule` consumes.
`needRebuildResult` models the value `module.needRebuild(fileTimestamps,
contextTimestamps)` returns for the compilation's current timestamp maps. -/
structure WModule where
  identifier : String
  errors : List WErr
  warnings : List WErr
  needRebuildResult : Bool
deriving DecidableEq, Repr

/-- The compilation state that `addModule` reads and writes:
`_modules` (identifier-keyed map), `modules` (insertion order), the optional
`cache`, the availability of the two timestamp maps, and the error and
warning lists. -/
structure ModuleStoreState where
  _modules : List (String × WModule)
  modules : List WModule
  cache : Option (List (String × WModule))
  fileTimestamps : Bool
  contextTimestamps : Bool
  errors : List WErr
  warnings : List WErr
deriving DecidableEq, Repr

/-- The three-valued return of `addModule`: JS `false` (duplicate),
a cached `Module` instance, or JS `true` (newly inserted). -/
inductive AddModuleResult where
  | dup : AddModuleResult
  | cached : WModule → AddModuleResult
  | added : AddModuleResult
deriving DecidableEq, Repr

/-- `Compilation.addModule(module, cacheGroup)` (Compilation.js:115-145).
`module.unbuild()` and `cacheModule.disconnect()` mutate graph edges that are
owned by the external `Module` objects and are not part of this state. -/
def addModule (st : ModuleStoreState) (module : WModule) (cacheGroup : Option String) :
    ModuleStoreState × AddModuleResult :=
  let identifier := module.identifier
  match st._modules.lookup identifier with
  | some _ => (st, .dup)
  | none =>
    let cacheName := (cacheGroup.getD "m") ++ identifier
    let insert : ModuleStoreState × AddModuleResult :=
      ({ st with
          _modules := setAssoc st._modules identifier module
          cache := st.cache.map (fun c => setAssoc c cacheName module)
          modules := st.modules ++ [module] }, .added)
    match st.cache with
    | none => insert
    | some cacheMap =>
      match cacheMap.lookup cacheName with
      | none => insert
      | some cacheModule =>
        let rebuild :=
          if st.fileTimestamps && st.contextTimestamps then
            cacheModule.needRebuildResult
          else
            true
        if rebuild then
          insert
        else
          ({ st with
              _modules := setAssoc st._modules identifier cacheModule
              modules := st.modules ++ [cacheModule]
              errors := st.errors ++ cacheModule.errors
              warnings := st.warnings ++ cacheModule.warnings }, .cached cacheModule)

/-- The cache-hit condition of the claim: a cache entry exists for
`(cacheGroup or "m") + identifier`, both timestamp maps are available, and the
cached module's `needRebuild` returns false. -/
def cacheFresh (st : ModuleStoreState) (module : WModule) (cacheGroup : Option String) : Prop :=
  ∃ cacheMap cacheModule,
    st.cache = some cacheMap ∧
    cacheMap.lookup ((cacheGroup.getD "m") ++ module.identifier) = some cacheModule ∧
    st.fileTimestamps = true ∧ st.contextTimestamps = true ∧
    cacheModule.needRebuildResult = false

/-- C3: `addModule(module, cacheGroup)` returns `false` iff a module with the
same identifier is already in `_modules`, inserting nothing in that case;
otherwise it returns a cached `Module` instance exactly when the cache holds a
fresh entry (both timestamp maps available and `needRebuild` false), inserting
the cached instance into `_modules` and `modules` and copying its errors and
warnings; in every other case the given module is inserted into `_modules`,
`modules` and (when a cache exists) the cache, and `true` is returned. -/
theorem C3_addModule_contract (st : ModuleStoreState) (module : WModule)
    (cacheGroup : Option String) :
    let r := addModule st module cacheGroup
    (r.2 = .dup ↔ (st._modules.lookup module.identifier).isSome) ∧
    ((st._modules.lookup module.identifier).isSome → r.1 = st) ∧
    (st._modules.lookup module.identifier = none →
      (((∃ m, r.2 = .cached m) ↔ cacheFresh st module cacheGroup) ∧
       (∀ cacheMap cacheModule,
          st.cache = some cacheMap →
          cacheMap.lookup ((cacheGroup.getD "m") ++ module.identifier) = some cacheModule →
          st.fileTimestamps = true → st.contextTimestamps = true →
          cacheModule.needRebuildResult = false →
          r.2 = .cached cacheModule ∧
          r.1 = { st with
                   _modules := setAssoc st._modules module.identifier cacheModule
                   modules := st.modules ++ [cacheModule]
                   errors := st.errors ++ cacheModule.errors
                   warnings := st.warnings ++ cacheModule.warnings }) ∧
       (¬ cacheFresh st module cacheGroup →
          r.2 = .added ∧
          r.1 = { st with
                   _modules := setAssoc st._modules module.identifier module
                   cache := st.cache.map
                     (fun c => setAssoc c ((cacheGroup.getD "m") ++ module.identifier) module)
                   modules := st.modules ++ [module] }))) := by
  obtain ⟨ms, mods, cache, fts, cts, errs, warns⟩ := st
  simp only [addModule, cacheFresh]
  rcases hdup : List.lookup module.identifier ms with _ | m0
  · rcases cache with _ | cacheMap
    · simp
    · rcases hl : List.lookup ((cacheGroup.getD "m") ++ module.identifier) cacheMap
        with _ | cacheModule
      · simp only [hl]
        refine ⟨by simp, by simp, fun _ => ⟨?_, ?_, ?_⟩⟩
        · constructor
          · rintro ⟨m, hm⟩; cases hm
          · rintro ⟨cm, cmod, hcm, hlook, -⟩
            cases hcm; simp [hl] at hlook
        · rintro cm cmod hcm hlook
          cases hcm; simp [hl] at hlook
        · intro _; constructor <;> (first | rfl | trivial)
      · rcases fts with _ | _ <;> rcases cts with _ | _ <;>
          rcases hrb : cacheModule.needRebuildResult with _ | _ <;>
          simp_all
  · simp [hdup]

/-! ## C5 / C10 — `buildModule` deduplication and `waitForBuildingFinished`

`_buildingModules` maps a module (object identity, here a `Nat` token) to its
waiter list.  A waiter registered by `buildModule` is the caller's callback
itself (it receives the terminal error value); a waiter registered by
`waitForBuildingFinished` is the zero-argument closure `() => callback()`,
which discards whatever value it is invoked with. -/

/-- A waiter in a `_buildingModules` waiter list; `k` is the identity of the
underlying user callback. -/
inductive Waiter where
  | direct (k : Nat)
  | wrapped (k : Nat)
deriving DecidableEq, Repr

/-- State touched by `buildModule` and its completion continuation. `inFlight`
records the modules whose underlying `module.build` has been started and has
not yet completed. -/
structure BuildState where
  _buildingModules : List (Nat × List Waiter)
  inFlight : List Nat
  errors : List WErr
  warnings : List WErr
deriving DecidableEq, Repr

/-- The synchronous head of `buildModule` (Compilation.js:165-179): if a build
is already in flight for this module, append the callback to its waiter list
and do not start a second build (returns `false`); otherwise install a fresh
waiter list holding just this callback and start `module.build` (`true`). -/
def buildModule (st : BuildState) (module : Nat) (cb : Nat) : BuildState × Bool :=
  match st._buildingModules.lookup module with
  | some callbackList =>
    ({ st with
        _buildingModules :=
          setAssoc st._buildingModules module (callbackList ++ [.direct cb]) }, false)
  | none =>
    ({ st with
        _buildingModules := setAssoc st._buildingModules module [.direct cb]
        inFlight := st.inFlight ++ [module] }, true)

/-- The completion continuation of `buildModule` (Compilation.js:174-205):
stamp and record the module's accumulated errors (to `warnings` when
`optional`, else to `errors`) and warnings, then run the closed-over
`callback`: delete the module's entry from `_buildingModules` and invoke every
waiter in the captured list with the same terminal value `err`.  The returned
invocation list is paired with the state in which the entry is already
deleted, mirroring that the deletion happens before any waiter callback runs.
(`module.dependencies.sort(Dependency.compare)` mutates the external module
and is outside this state.) -/
def buildModuleComplete (st : BuildState) (module : Nat)
    (moduleErrors moduleWarnings : List WErr) («optional» : Bool)
    (err : Option WErr) : BuildState × List (Waiter × Option WErr) :=
  let st1 :=
    { st with
        errors := if «optional» then st.errors else st.errors ++ moduleErrors
        warnings :=
          (if «optional» then st.warnings ++ moduleErrors else st.warnings)
            ++ moduleWarnings }
  let callbackList := (st1._buildingModules.lookup module).getD []
  ({ st1 with
      _buildingModules := removeAssoc st1._buildingModules module
      inFlight := st1.inFlight.erase module },
   callbackList.map (fun w => (w, err)))

/-- Outcome of `waitForBuildingFinished`: either the callback joined a pending
build's waiter list, or no build is tracked and the callback is scheduled on
the next tick (with no arguments). -/
inductive WaitOutcome where
  | joined (st : BuildState)
  | nextTick
deriving DecidableEq, Repr

/-- `waitForBuildingFinished(module, callback)` (Compilation.js:156-163): when
a build is in flight the callback joins the waiter list wrapped as the
zero-argument closure `() => callback()`; otherwise `process.nextTick(callback)`. -/
def waitForBuildingFinished (st : BuildState) (module : Nat) (cb : Nat) : WaitOutcome :=
  match st._buildingModules.lookup module with
  | some callbackList =>
    .joined { st with
        _buildingModules :=
          setAssoc st._buildingModules module (callbackList ++ [.wrapped cb]) }
  | none => .nextTick

/-- The value the underlying user callback observes when a waiter is invoked
with terminal value `err`: a direct waiter passes `err` through, a wrapped
waiter (`() => callback()`) discards it. -/
def observedValue (w : Waiter) (err : Option WErr) : Nat × Option WErr :=
  match w with
  | .direct k => (k, err)
  | .wrapped k => (k, none)

/-- Events of the build coordinator, used to state the at-most-one-in-flight
invariant over arbitrary interleavings. -/
inductive BuildOp where
  | call (module cb : Nat)
  | wait (module cb : Nat)
  | complete (module : Nat) (moduleErrors moduleWarnings : List WErr)
      («optional» : Bool) (err : Option WErr)

/-- Execute a sequence of build-coordinator events.  A `complete` event models
the underlying `module.build` finishing, so it only fires for a module whose
build is in flight. -/
def buildExec (st : BuildState) : List BuildOp → BuildState
  | [] => st
  | .call m cb :: rest => buildExec (buildModule st m cb).1 rest
  | .wait m cb :: rest =>
    match waitForBuildingFinished st m cb with
    | .joined st' => buildExec st' rest
    | .nextTick => buildExec st rest
  | .complete m me mw o e :: rest =>
    if m ∈ st.inFlight then buildExec (buildModuleComplete st m me mw o e).1 rest
    else buildExec st rest

/-- The build coordinator's invariant: waiter-list keys are unique, the set of
in-flight builds has no duplicates, and a module has a waiter list exactly
while its build is in flight. -/
def BuildInv (st : BuildState) : Prop :=
  (st._buildingModules.map Prod.fst).Nodup ∧
  st.inFlight.Nodup ∧
  ∀ m, (st._buildingModules.lookup m).isSome ↔ m ∈ st.inFlight

/-- The pristine coordinator state of a fresh `Compilation`. -/
def buildInit : BuildState := ⟨[], [], [], []⟩

/-! ## C7 — factory-error handling in `addModuleDependencies` -/

/-- The slice of the external `Dependency` interface consulted by the
factory-error path: only `optional`. -/
structure Dependency where
  «optional» : Bool
deriving DecidableEq, Repr

/-- Error/warning lists of the compilation, as touched by the per-group error
helpers of `addModuleDependencies`. -/
structure ErrState where
  errors : List WErr
  warnings : List WErr
deriving DecidableEq, Repr

/-- `new ModuleNotFoundError(module, err, dependencies)`: only the message is
observable here. -/
def mkModuleNotFoundError (factoryErr : WErr) : WErr :=
  ⟨"ModuleNotFoundError: " ++ factoryErr.message⟩

/-- `errorAndCallback` (Compilation.js:251-259): push the error (stamped with
`origin`) onto `compilation.errors`; propagate it to the group's callback
exactly when `bail` is set. -/
def errorAndCallback (bail : Bool) (err : WErr) (st : ErrState) :
    ErrState × Option WErr :=
  ({ st with errors := st.errors ++ [err] }, if bail then some err else none)

/-- `warningAndCallback` (Compilation.js:260-264): push the error onto
`compilation.warnings` and continue without an error. -/
def warningAndCallback (err : WErr) (st : ErrState) : ErrState × Option WErr :=
  ({ st with warnings := st.warnings ++ [err] }, none)

/-- `errorOrWarningAndCallback` (Compilation.js:288-294): a group whose
dependencies are all `optional` reports a warning, otherwise an error. -/
def errorOrWarningAndCallback (bail : Bool) (dependencies : List Dependency)
    (err : WErr) (st : ErrState) : ErrState × Option WErr :=
  if dependencies.all (·.optional) then warningAndCallback err st
  else errorAndCallback bail err st

/-- The `err` branch of the `factory.create` callback in
`addModuleDependencies` (Compilation.js:304-307). -/
def onFactoryError (bail : Bool) (dependencies : List Dependency)
    (factoryErr : WErr) (st : ErrState) : ErrState × Option WErr :=
  errorOrWarningAndCallback bail dependencies (mkModuleNotFoundError factoryErr) st

/-! Association-list lemmas used by the coordinator proofs. -/

theorem lookup_cons {β : Type} (k' k0 : Nat) (v0 : β) (tl : List (Nat × β)) :
    List.lookup k' ((k0, v0) :: tl) = if k' = k0 then some v0 else List.lookup k' tl := by
  by_cases h : k' = k0
  · subst h; simp [List.lookup]
  · simp [List.lookup, h, beq_eq_false_iff_ne.mpr h]

theorem lookup_setAssoc {β : Type} (l : List (Nat × β)) (k k' : Nat) (v : β) :
    (setAssoc l k v).lookup k' = if k' = k then some v else l.lookup k' := by
  induction l with
  | nil => by_cases h : k' = k <;> simp [setAssoc, lookup_cons, h]
  | cons hd tl ih =>
    obtain ⟨k0, v0⟩ := hd
    by_cases h0 : k0 = k
    · subst h0
      by_cases h : k' = k0 <;> simp [setAssoc, lookup_cons, h]
    · by_cases h : k' = k0
      · subst h
        simp [setAssoc, h0, lookup_cons, Ne.symm h0]
      · by_cases h2 : k' = k
        · subst h2
          simp [setAssoc, h0, lookup_cons, h, ih]
        · simp [setAssoc, h0, lookup_cons, h, h2, ih]

theorem lookup_eq_none_of_not_mem_keys {β : Type} (l : List (Nat × β)) (k : Nat)
    (h : k ∉ l.map Prod.fst) : l.lookup k = none := by
  induction l with
  | nil => simp [List.lookup]
  | cons hd tl ih =>
    obtain ⟨k0, v0⟩ := hd
    simp only [List.map_cons, List.mem_cons, not_or] at h
    simp [lookup_cons, h.1, ih h.2]

theorem lookup_removeAssoc_self {β : Type} (l : List (Nat × β)) (k : Nat)
    (h : (l.map Prod.fst).Nodup) : (removeAssoc l k).lookup k = none := by
  induction l with
  | nil => simp [removeAssoc, List.lookup]
  | cons hd tl ih =>
    obtain ⟨k0, v0⟩ := hd
    simp only [List.map_cons, List.nodup_cons] at h
    by_cases h0 : k0 = k
    · subst h0
      simpa [removeAssoc] using lookup_eq_none_of_not_mem_keys tl k0 h.1
    · simp [removeAssoc, h0, lookup_cons, Ne.symm h0, ih h.2]

theorem lookup_removeAssoc_ne {β : Type} (l : List (Nat × β)) (k k' : Nat)
    (h : k' ≠ k) : (removeAssoc l k).lookup k' = l.lookup k' := by
  induction l with
  | nil => simp [removeAssoc]
  | cons hd tl ih =>
    obtain ⟨k0, v0⟩ := hd
    by_cases h0 : k0 = k
    · subst h0; simp [removeAssoc, lookup_cons, h]
    · by_cases h1 : k' = k0 <;> simp [removeAssoc, h0, lookup_cons, h1, ih]

theorem keys_setAssoc {β : Type} (l : List (Nat × β)) (k : Nat) (v : β) :
    (setAssoc l k v).map Prod.fst =
      if k ∈ l.map Prod.fst then l.map Prod.fst else l.map Prod.fst ++ [k] := by
  induction l with
  | nil => simp [setAssoc]
  | cons hd tl ih =>
    obtain ⟨k0, v0⟩ := hd
    by_cases h0 : k0 = k
    · subst h0; simp [setAssoc]
    · by_cases h : k ∈ tl.map Prod.fst <;>
        simp [setAssoc, h0, Ne.symm h0, h, ih]

theorem nodup_keys_setAssoc {β : Type} (l : List (Nat × β)) (k : Nat) (v : β)
    (h : (l.map Prod.fst).Nodup) : ((setAssoc l k v).map Prod.fst).Nodup := by
  rw [keys_setAssoc]
  by_cases hk : k ∈ l.map Prod.fst
  · simpa [hk]
  · simpa [hk] using List.Nodup.append h (List.nodup_singleton k) (by simpa using hk)

theorem keys_removeAssoc_sublist {β : Type} (l : List (Nat × β)) (k : Nat) :
    ((removeAssoc l k).map Prod.fst).Sublist (l.map Prod.fst) := by
  induction l with
  | nil => simp [removeAssoc]
  | cons hd tl ih =>
    obtain ⟨k0, v0⟩ := hd
    by_cases h0 : k0 = k
    · subst h0; simp [removeAssoc]
    · simpa [removeAssoc, h0] using ih.cons₂ k0

/-- The coordinator invariant is preserved by every event and holds in the
initial state. -/
theorem buildExec_inv (ops : List BuildOp) : BuildInv (buildExec buildInit ops) := by
  suffices h : ∀ ops st, BuildInv st → BuildInv (buildExec st ops) by
    exact h ops buildInit
      ⟨by simp [buildInit], by simp [buildInit], by simp [buildInit, List.lookup]⟩
  intro ops
  induction ops with
  | nil => intro st h; exact h
  | cons op rest ih =>
    intro st h
    obtain ⟨hkeys, hflight, hiff⟩ := h
    cases op with
    | call m cb =>
      rw [buildExec]
      apply ih
      rcases hl : st._buildingModules.lookup m with _ | l
      · -- fresh build: install list, start build
        refine ⟨?_, ?_, ?_⟩
        · simpa [buildModule, hl] using nodup_keys_setAssoc _ m _ hkeys
        · have hmem : m ∉ st.inFlight := by
            intro hm
            have := (hiff m).mpr hm
            rw [hl] at this
            simp at this
          simpa [buildModule, hl] using List.Nodup.append hflight (List.nodup_singleton m)
            (by simpa using hmem)
        · intro m'
          by_cases hm : m' = m <;>
            simp [buildModule, hl, lookup_setAssoc, hm, hiff m']
      · refine ⟨?_, ?_, ?_⟩
        · simpa [buildModule, hl] using nodup_keys_setAssoc _ m _ hkeys
        · simpa [buildModule, hl] using hflight
        · intro m'
          by_cases hm : m' = m
          · subst hm
            simp [buildModule, hl, lookup_setAssoc]
            exact (hiff m').mp (by simp [hl])
          · simpa [buildModule, hl, lookup_setAssoc, hm] using hiff m'
    | wait m cb =>
      rw [buildExec]
      rcases hl : st._buildingModules.lookup m with _ | l
      · simpa [waitForBuildingFinished, hl] using ih st ⟨hkeys, hflight, hiff⟩
      · simp only [waitForBuildingFinished, hl]
        apply ih
        refine ⟨?_, hflight, ?_⟩
        · simpa using nodup_keys_setAssoc _ m _ hkeys
        · intro m'
          by_cases hm : m' = m
          · subst hm
            simp [lookup_setAssoc]
            exact (hiff m').mp (by simp [hl])
          · simpa [lookup_setAssoc, hm] using hiff m'
    | complete m me mw o e =>
      rw [buildExec]
      by_cases hm : m ∈ st.inFlight
      · simp only [hm, if_true]
        apply ih
        refine ⟨?_, ?_, ?_⟩
        · exact List.Nodup.sublist (keys_removeAssoc_sublist _ m) hkeys
        · exact hflight.erase m
        · intro m'
          by_cases hm' : m' = m
          · subst hm'
            simp [buildModuleComplete, lookup_removeAssoc_self _ _ hkeys,
              List.Nodup.not_mem_erase hflight]
          · simp only [buildModuleComplete]
            simpa [lookup_removeAssoc_ne _ _ _ hm',
              List.Nodup.mem_erase_iff hflight, hm'] using hiff m'
      · simpa [hm] using ih st ⟨hkeys, hflight, hiff⟩

/-- C5: while a build for a module is pending, a further `buildModule` call for
the same module appends its callback to the existing waiter list and does not
start a second build; when the build completes, the module's entry is deleted
from `_buildingModules` (and from the in-flight set) before any waiter
callback runs, and all callbacks in the captured waiter list are invoked with
the same terminal value; along any event sequence from the initial state the
coordinator keeps at most one underlying `module.build` in flight per module
(`inFlight` is duplicate-free and tracks exactly the keyed waiter lists, and a
call that finds a waiter list never starts a build). -/
theorem C5_buildModule_dedup :
    (∀ st m cb l, st._buildingModules.lookup m = some l →
       buildModule st m cb =
         ({ st with _buildingModules :=
              setAssoc st._buildingModules m (l ++ [.direct cb]) }, false)) ∧
    (∀ st m me mw o err, BuildInv st →
       (buildModuleComplete st m me mw o err).1._buildingModules.lookup m = none ∧
       m ∉ (buildModuleComplete st m me mw o err).1.inFlight ∧
       (buildModuleComplete st m me mw o err).2 =
         ((st._buildingModules.lookup m).getD []).map (fun w => (w, err)) ∧
       ∀ p ∈ (buildModuleComplete st m me mw o err).2, p.2 = err) ∧
    (∀ ops, BuildInv (buildExec buildInit ops)) := by
  refine ⟨?_, ?_, buildExec_inv⟩
  · intro st m cb l hl
    simp [buildModule, hl]
  · intro st m me mw o err hinv
    obtain ⟨hkeys, hflight, hiff⟩ := hinv
    refine ⟨?_, ?_, ?_, ?_⟩
    · simpa [buildModuleComplete] using lookup_removeAssoc_self _ m hkeys
    · simpa [buildModuleComplete] using List.Nodup.not_mem_erase hflight
    · simp [buildModuleComplete]
    · intro p hp
      simp only [buildModuleComplete, List.mem_map] at hp
      obtain ⟨w, -, hw⟩ := hp
      rw [← hw]

/-- Witness for C5: a pending build for module 7 with one waiter; the second
call joins the waiter list, and completion deletes the entry. -/
theorem C5_buildModule_dedup_witness :
    let st : BuildState := ⟨[(7, [Waiter.direct 1])], [7], [], []⟩
    buildModule st 7 2 =
      ({ st with _buildingModules :=
           setAssoc st._buildingModules 7 ([Waiter.direct 1] ++ [Waiter.direct 2]) },
       false) ∧
    (buildModuleComplete st 7 [] [] false (some ⟨"boom"⟩)).1._buildingModules.lookup 7
      = none := by
  refine ⟨C5_buildModule_dedup.1 _ 7 2 [Waiter.direct 1] (by decide), ?_⟩
  have hinv : BuildInv ⟨[(7, [Waiter.direct 1])], [7], [], []⟩ := by
    refine ⟨by decide, by decide, ?_⟩
    intro m
    by_cases hm : m = 7 <;> simp [lookup_cons, hm]
  exact (C5_buildModule_dedup.2.1 _ 7 [] [] false (some ⟨"boom"⟩) hinv).1

/-- C7: when `factory.create` fails for a dependency group, exactly one
`ModuleNotFoundError` is recorded: as a warning when every dependency of the
group is optional, and then the group's callback is invoked without an error
regardless of `bail`; otherwise as an error, propagated to the group's
callback exactly when `bail` is set. -/
theorem C7_factory_error_reporting (bail : Bool) (deps : List Dependency)
    (fe : WErr) (st : ErrState) :
    let r := onFactoryError bail deps fe st
    (deps.all (·.optional) = true →
       r.1 = { st with warnings := st.warnings ++ [mkModuleNotFoundError fe] } ∧
       r.2 = none) ∧
    (deps.all (·.optional) = false →
       r.1 = { st with errors := st.errors ++ [mkModuleNotFoundError fe] } ∧
       (r.2 = some (mkModuleNotFoundError fe) ↔ bail = true)) := by
  constructor
  · intro hall
    simp [onFactoryError, errorOrWarningAndCallback, warningAndCallback, hall]
  · intro hall
    cases bail <;>
      simp [onFactoryError, errorOrWarningAndCallback, errorAndCallback, hall]

/-- Witness for C7: an all-optional group warns and continues even under
`bail`; a non-optional group errors and propagates under `bail`. -/
theorem C7_factory_error_reporting_witness :
    ((onFactoryError true [⟨true⟩] ⟨"enoent"⟩ ⟨[], []⟩).1.warnings.length = 1 ∧
     (onFactoryError true [⟨true⟩] ⟨"enoent"⟩ ⟨[], []⟩).2 = none) ∧
    ((onFactoryError true [⟨false⟩] ⟨"enoent"⟩ ⟨[], []⟩).1.errors.length = 1 ∧
     (onFactoryError true [⟨false⟩] ⟨"enoent"⟩ ⟨[], []⟩).2 =
       some (mkModuleNotFoundError ⟨"enoent"⟩)) := by
  constructor
  · have h := (C7_factory_error_reporting true [⟨true⟩] ⟨"enoent"⟩ ⟨[], []⟩).1 (by decide)
    exact ⟨by rw [h.1]; simp, h.2⟩
  · have h := (C7_factory_error_reporting true [⟨false⟩] ⟨"enoent"⟩ ⟨[], []⟩).2 (by decide)
    exact ⟨by rw [h.1]; simp, h.2.mpr rfl⟩

/-! ## C8 / C10 — `_addModuleChain` and `addEntry` -/

/-- A reserved slot in `preparedChunks` (`{ name, module: null }`). -/
structure Slot where
  name : Option String
  module : Option WModule
deriving DecidableEq, Repr

/-- Compilation state threaded through `_addModuleChain` / `addEntry`. -/
structure ChainState where
  store : ModuleStoreState
  preparedChunks : List Slot
  entries : List WModule
deriving DecidableEq, Repr

/-- Outcome of the single `moduleFactory.create` call of `_addModuleChain`. -/
inductive FactoryResult where
  | err (e : WErr)
  | ok (module : WModule)
deriving DecidableEq, Repr

/-- Oracle outcomes of the external calls `_addModuleChain` makes: the module
factory; `module.build` (through `buildModule`) for a newly inserted module;
`processModuleDependencies` for the recursion; and the terminal value of the
already-in-flight shared build joined on the duplicate path. -/
structure ChainEnv where
  bail : Bool
  factoryResult : FactoryResult
  buildErr : Option WErr
  processDepsErr : Option WErr
  sharedBuildErr : Option WErr
deriving DecidableEq, Repr

/-- `new EntryModuleNotFoundError(err)`: only the message is observable. -/
def mkEntryModuleNotFoundError (e : WErr) : WErr :=
  ⟨"EntryModuleNotFoundError: " ++ e.message⟩

/-- `_addModuleChain(context, dependency, onModule, callback)`
(Compilation.js:407-520), with the external calls replaced by the oracles in
`env`.  Returns the final state and the `(err, module)` pair passed to
`callback`.  (`dependency.module = module` and `module.addReason(null,
dependency)` mutate external objects outside this state; the `err.dependencies
= [dependency]` stamp of the non-bail error helper is likewise external.) -/
def _addModuleChain (st : ChainState) (env : ChainEnv)
    (onModule : WModule → ChainState → ChainState) :
    ChainState × Option WErr × Option WModule :=
  match env.factoryResult with
  | .err e =>
    -- errorAndCallback: with bail propagate, else record and continue
    let e' := mkEntryModuleNotFoundError e
    if env.bail then (st, some e', none)
    else ({ st with store := { st.store with errors := st.store.errors ++ [e'] } },
          none, none)
  | .ok module =>
    match addModule st.store module none with
    | (store', .dup) =>
      -- module = this.getModule(module); onModule(module); then
      -- waitForBuildingFinished delivers no value to its callback (the waiter
      -- is the wrapped zero-argument closure, cf. observedValue)
      let module' := (store'._modules.lookup module.identifier).getD module
      let st2 := onModule module' { st with store := store' }
      match (observedValue (.wrapped 0) env.sharedBuildErr).2 with
      | some e => (st2, some e, none)
      | none => (st2, none, some module')
    | (store', .cached result) =>
      -- cache hit: use the cached instance, then moduleReady
      let st2 := onModule result { st with store := store' }
      match env.processDepsErr with
      | some e => (st2, some e, none)
      | none => (st2, none, some result)
    | (store', .added) =>
      -- newly inserted: build it, then moduleReady
      let st2 := onModule module { st with store := store' }
      match env.buildErr with
      | some e =>
        if env.bail then (st2, some e, none)
        else ({ st2 with
                 store := { st2.store with errors := st2.store.errors ++ [e] } },
              none, none)
      | none =>
        match env.processDepsErr with
        | some e => (st2, some e, none)
        | none => (st2, none, some module)

/-- `addEntry(context, entry, name, callback)` (Compilation.js:522-545):
reserve a slot in `preparedChunks`, run `_addModuleChain` (whose `onModule`
pushes the module onto `entries`), and in the chain's callback: on error just
propagate; otherwise if a module was produced store it in the slot, else
remove the slot.  The JS code locates the slot by object identity
(`indexOf(slot)`); nothing else touches `preparedChunks`, so the slot is at
the recorded index. -/
def addEntry (st : ChainState) (env : ChainEnv) (name : Option String) :
    ChainState × Option WErr × Option WModule :=
  let slot : Slot := { name := name, module := none }
  let idx := st.preparedChunks.length
  let st1 := { st with preparedChunks := st.preparedChunks ++ [slot] }
  match _addModuleChain st1 env (fun m s => { s with entries := s.entries ++ [m] }) with
  | (st2, some e, _) => (st2, some e, none)
  | (st2, none, some m) =>
    ({ st2 with
        preparedChunks := st2.preparedChunks.set idx { slot with module := some m } },
     none, some m)
  | (st2, none, none) =>
    ({ st2 with preparedChunks := st2.preparedChunks.eraseIdx idx }, none, none)

/-- The property C8 claims for every completion of `addEntry`: either the
reserved slot holds the produced module, or no module was produced and the
reserved slot has been removed again. -/
def C8ClaimProp (st st' : ChainState) (name : Option String)
    (module : Option WModule) : Prop :=
  (∃ m, module = some m ∧
     st'.preparedChunks = st.preparedChunks ++ [{ name := name, module := some m }]) ∨
  (module = none ∧ st'.preparedChunks = st.preparedChunks)

theorem set_append_length {α : Type} (l : List α) (a b : α) :
    (l ++ [a]).set l.length b = l ++ [b] := by
  induction l with
  | nil => rfl
  | cons hd tl ih => simp [List.set, ih]

theorem eraseIdx_append_length {α : Type} (l : List α) (a : α) :
    (l ++ [a]).eraseIdx l.length = l := by
  induction l with
  | nil => rfl
  | cons hd tl ih => simp [List.eraseIdx, ih]

/-- `_addModuleChain` never touches `preparedChunks` (only `addEntry` does),
as long as the `onModule` action it is given does not. -/
theorem _addModuleChain_preparedChunks (st : ChainState) (env : ChainEnv)
    (onModule : WModule → ChainState → ChainState)
    (hon : ∀ m s, (onModule m s).preparedChunks = s.preparedChunks) :
    (_addModuleChain st env onModule).1.preparedChunks = st.preparedChunks := by
  rcases env with ⟨bail, fr, be, pe, se⟩
  cases fr with
  | err e => cases bail <;> simp [_addModuleChain]
  | ok module =>
    simp only [_addModuleChain]
    rcases hadd : addModule st.store module none with ⟨store', result⟩
    cases result with
    | dup =>
      cases se <;> simp [observedValue, hon]
    | cached m => cases pe <;> simp [hon]
    | added =>
      cases be with
      | none => cases pe <;> simp [hon]
      | some e => cases bail <;> simp [hon]

/-- Counterexample to C8: with `bail` set and a failing factory, the chain
propagates the error, `addEntry`'s callback receives it with no module, and
the reserved slot is left behind in `preparedChunks` (neither filled in nor
removed). -/
theorem C8_counterexample :
    let st0 : ChainState := ⟨⟨[], [], none, false, false, [], []⟩, [], []⟩
    let env : ChainEnv := ⟨true, .err ⟨"nope"⟩, none, none, none⟩
    (addEntry st0 env (some "main")).2.1 =
        some (mkEntryModuleNotFoundError ⟨"nope"⟩) ∧
    (addEntry st0 env (some "main")).2.2 = none ∧
    (addEntry st0 env (some "main")).1.preparedChunks =
        [{ name := some "main", module := none }] ∧
    ¬ C8ClaimProp st0 (addEntry st0 env (some "main")).1 (some "main")
        (addEntry st0 env (some "main")).2.2 := by
  intro st0 env
  refine ⟨rfl, rfl, rfl, ?_⟩
  rintro (⟨m, hm, -⟩ | ⟨-, h⟩)
  · rw [show (addEntry st0 env (some "main")).2.2 = none from rfl] at hm
    cases hm
  · rw [show (addEntry st0 env (some "main")).1.preparedChunks =
        [{ name := some "main", module := none }] from rfl] at h
    cases h

/-- C8 amended: when `addEntry`'s callback is invoked without an error, the
reserved slot holds the produced module, or no module was produced and the
slot has been removed; but when the callback receives an error (factory or
build failure under `bail`, or a propagated recursion error), the reserved
slot remains in `preparedChunks` with its `module` still null and no module is
passed. -/
theorem C8_addEntry_slot (st : ChainState) (env : ChainEnv) (name : Option String) :
    let r := addEntry st env name
    ((∃ e, r.2.1 = some e) →
       r.2.2 = none ∧
       r.1.preparedChunks = st.preparedChunks ++ [{ name := name, module := none }]) ∧
    (∀ m, r.2.1 = none → r.2.2 = some m →
       r.1.preparedChunks = st.preparedChunks ++ [{ name := name, module := some m }]) ∧
    (r.2.1 = none → r.2.2 = none → r.1.preparedChunks = st.preparedChunks) := by
  have hpc := _addModuleChain_preparedChunks
    { st with preparedChunks := st.preparedChunks ++ [{ name := name, module := none }] }
    env (fun m s => { s with entries := s.entries ++ [m] }) (fun _ _ => rfl)
  simp only [addEntry]
  rcases hchain : _addModuleChain
      { st with preparedChunks := st.preparedChunks ++ [{ name := name, module := none }] }
      env (fun m s => { s with entries := s.entries ++ [m] }) with ⟨st2, err, module⟩
  rw [hchain] at hpc
  dsimp only at hpc
  rcases err with _ | e
  · rcases module with _ | m
    · dsimp only
      refine ⟨?_, ?_, ?_⟩
      · rintro ⟨e, he⟩; cases he
      · intro m h1 h2; cases h2
      · intro _ _
        rw [hpc]
        exact eraseIdx_append_length st.preparedChunks { name := name, module := none }
    · dsimp only
      refine ⟨?_, ?_, ?_⟩
      · rintro ⟨e, he⟩; cases he
      · intro m2 h1 h2
        injection h2 with h2e
        subst h2e
        rw [hpc]
        exact set_append_length st.preparedChunks
          { name := name, module := none } { name := name, module := some m }
      · intro _ h2; cases h2
  · dsimp only
    refine ⟨?_, ?_, ?_⟩
    · intro _
      exact ⟨rfl, hpc⟩
    · intro m h1; cases h1
    · intro h1; cases h1

/-- Witness for C8 amended: a successful entry (factory produces a fresh
module, build and recursion succeed) fills the reserved slot. -/
theorem C8_addEntry_slot_witness :
    let st0 : ChainState := ⟨⟨[], [], none, false, false, [], []⟩, [], []⟩
    let a : WModule := ⟨"a", [], [], true⟩
    let env : ChainEnv := ⟨false, .ok a, none, none, none⟩
    (addEntry st0 env (some "main")).1.preparedChunks =
      [{ name := some "main", module := some a }] := by
  intro st0 a env
  have h := (C8_addEntry_slot st0 env (some "main")).2.1 a rfl rfl
  simpa using h

/-- C10: `waitForBuildingFinished` always invokes its callback with no error
value: with a build in flight the callback joins the waiter list wrapped as a
zero-argument closure, so whatever terminal value the build completes with,
the wrapped waiter delivers `none`; with no build tracked the callback is
scheduled on the next tick (with no arguments); consequently the
duplicate-module path of `_addModuleChain` completes with `(null, module)`
regardless of how the shared build ends. -/
theorem C10_waitForBuildingFinished_no_error :
    (∀ st m cb l, st._buildingModules.lookup m = some l →
       waitForBuildingFinished st m cb =
         WaitOutcome.joined
           { st with
              _buildingModules := setAssoc st._buildingModules m (l ++ [.wrapped cb]) } ∧
       ∀ err, observedValue (.wrapped cb) err = (cb, none)) ∧
    (∀ st m cb, st._buildingModules.lookup m = none →
       waitForBuildingFinished st m cb = .nextTick) ∧
    (∀ (st : ChainState) (env : ChainEnv) onModule module,
       env.factoryResult = .ok module →
       (st.store._modules.lookup module.identifier).isSome →
       ∃ m, (_addModuleChain st env onModule).2 = (none, some m)) := by
  refine ⟨?_, ?_, ?_⟩
  · intro st m cb l hl
    exact ⟨by simp [waitForBuildingFinished, hl], fun _ => rfl⟩
  · intro st m cb hl
    simp [waitForBuildingFinished, hl]
  · intro st env onModule module hf hdup
    rcases hl : st.store._modules.lookup module.identifier with _ | m0
    · rw [hl] at hdup; cases hdup
    · refine ⟨(st.store._modules.lookup module.identifier).getD module, ?_⟩
      rcases env with ⟨bail, fr, be, pe, se⟩
      cases hf
      simp [_addModuleChain, addModule, hl, observedValue]

/-- Witness for C10: module 7 has a pending build; the joined waiter delivers
no error even though the build fails, and the duplicate path of
`_addModuleChain` completes successfully despite a failing shared build. -/
theorem C10_waitForBuildingFinished_no_error_witness :
    (observedValue (.wrapped 3) (some ⟨"boom"⟩) = (3, none)) ∧
    (let a : WModule := ⟨"a", [], [], true⟩
     let st : ChainState := ⟨⟨[("a", a)], [a], none, false, false, [], []⟩, [], []⟩
     let env : ChainEnv := ⟨false, .ok a, none, none, some ⟨"boom"⟩⟩
     ∃ m, (_addModuleChain st env (fun _ s => s)).2 = (none, some m)) := by
  constructor
  · exact (C10_waitForBuildingFinished_no_error.1
      ⟨[(7, [Waiter.direct 1])], [7], [], []⟩ 7 3 [Waiter.direct 1] (by decide)).2
      (some ⟨"boom"⟩)
  · intro a st env
    exact C10_waitForBuildingFinished_no_error.2.2 st env (fun _ s => s) a rfl
      (by decide)

/-- Witness for C3: a duplicate identifier returns `false` and inserts
nothing. -/
theorem C3_addModule_contract_witness :
    let a : WModule := ⟨"a", [], [], true⟩
    let st : ModuleStoreState := ⟨[("a", a)], [a], none, false, false, [], []⟩
    (addModule st a none).2 = .dup ∧ (addModule st a none).1 = st := by
  intro a st
  have h := C3_addModule_contract st a none
  exact ⟨h.1.mpr (by decide), h.2.1 (by decide)⟩

/-! ## C6 — `createHash` determinism -/

/-- The `outputOptions` consulted by `createHash`. -/
structure OutputOptions where
  hashFunction : String
  hashDigest : String
  hashDigestLength : Nat
  hashSalt : Option String
deriving DecidableEq, Repr

/-- External `Module` as seen by `createHash`: `module.updateHash(h)` feeds
`updateHashData` into the hash. -/
structure HModule where
  updateHashData : List String
deriving DecidableEq, Repr

/-- External `Chunk` as seen by `createHash`. -/
structure HChunk where
  updateHashData : List String
  hasRuntime : Bool
deriving DecidableEq, Repr

/-- External template: `updateHash(h)` feeds `updateHashData`;
`updateHashForChunk(h, chunk)` feeds `updateHashForChunkData chunk`. -/
structure HTemplate where
  updateHashData : List String
  updateHashForChunkData : HChunk → List String

/-- The compilation state read by `createHash` (plus `assets`, which it does
not read). `children` holds each child compilation's `hash`. -/
structure HCompilation where
  modules : List HModule
  chunks : List HChunk
  children : List String
  warnings : List WErr
  errors : List WErr
  mainTemplate : HTemplate
  chunkTemplate : HTemplate
  moduleTemplates : List (String × HTemplate)
  outputOptions : OutputOptions
  assets : List (String × String)

/-- Insertion sort on strings: `Object.keys(this.moduleTemplates).sort()`. -/
def insertString (x : String) : List String → List String
  | [] => [x]
  | y :: ys => if y < x then y :: insertString x ys else x :: y :: ys

def sortStrings : List String → List String
  | [] => []
  | x :: xs => insertString x (sortStrings xs)

/-- The hashes `createHash` computes and assigns: per-module `(hash,
renderedHash)` in insertion order, per-chunk `(hash, renderedHash)` in the
hashing order, and the compilation's `fullHash` and `hash`. -/
structure HashResult where
  moduleHashes : List (String × String)
  chunkHashes : List (String × String)
  fullHash : String
  hash : String
deriving DecidableEq, Repr

/-- `createHash()` (Compilation.js:1340-1394).  `crypto name digest updates`
models `crypto.createHash(name)`, the sequence of `update` calls, and
`digest(encoding)`; `chunkHashHook` models the registered handlers of the
`chunk-hash` hook (`applyPlugins2("chunk-hash", chunk, chunkHash)`).  The
chunk sort by `hasRuntime()` ascending is a stable partition
(Array.prototype.sort is stable), and `substr(0, n)` is `String.take n`. -/
def createHash (crypto : String → String → List String → String)
    (chunkHashHook : HChunk → List String) (c : HCompilation) : HashResult :=
  let outputOptions := c.outputOptions
  let hashFunction := outputOptions.hashFunction
  let hashDigest := outputOptions.hashDigest
  let hashDigestLength := outputOptions.hashDigestLength
  let saltUpdate : List String :=
    match outputOptions.hashSalt with
    | some s => [s]
    | none => []
  let templateKeys := sortStrings (c.moduleTemplates.map Prod.fst)
  let mainUpdates :=
    saltUpdate ++ c.mainTemplate.updateHashData ++ c.chunkTemplate.updateHashData ++
    (templateKeys.foldl (fun acc k =>
        acc ++ (((c.moduleTemplates.lookup k).map (·.updateHashData)).getD [])) []) ++
    c.children ++ c.warnings.map (·.message) ++ c.errors.map (·.message)
  let moduleHashes := c.modules.map (fun m =>
    let mhash := crypto hashFunction hashDigest m.updateHashData
    (mhash, mhash.take hashDigestLength))
  let sortedChunks :=
    c.chunks.filter (fun ch => !ch.hasRuntime) ++ c.chunks.filter (·.hasRuntime)
  let chunkHashes := sortedChunks.map (fun ch =>
    let updates := saltUpdate ++ ch.updateHashData ++
      (if ch.hasRuntime then c.mainTemplate.updateHashForChunkData ch
       else c.chunkTemplate.updateHashForChunkData ch) ++
      chunkHashHook ch
    let chash := crypto hashFunction hashDigest updates
    (chash, chash.take hashDigestLength))
  let fullHash := crypto hashFunction hashDigest (mainUpdates ++ chunkHashes.map Prod.fst)
  { moduleHashes := moduleHashes
    chunkHashes := chunkHashes
    fullHash := fullHash
    hash := fullHash.take hashDigestLength }

/-- C6: `createHash` is deterministic — two compilations agreeing on module
sequence, chunk sequence, children, errors, warnings, templates and output
options (and run with the same crypto library and `chunk-hash` handlers)
produce byte-identical module hashes, chunk hashes, `fullHash` and `hash`,
whatever else (e.g. `assets`) differs; and every `renderedHash` is the
corresponding hash truncated to `hashDigestLength` characters. -/
theorem C6_createHash_deterministic
    (crypto : String → String → List String → String)
    (chunkHashHook : HChunk → List String) (c1 c2 : HCompilation)
    (hm : c1.modules = c2.modules) (hc : c1.chunks = c2.chunks)
    (hch : c1.children = c2.children) (he : c1.errors = c2.errors)
    (hw : c1.warnings = c2.warnings)
    (ht1 : c1.mainTemplate = c2.mainTemplate)
    (ht2 : c1.chunkTemplate = c2.chunkTemplate)
    (ht3 : c1.moduleTemplates = c2.moduleTemplates)
    (ho : c1.outputOptions = c2.outputOptions) :
    createHash crypto chunkHashHook c1 = createHash crypto chunkHashHook c2 ∧
    (∀ p ∈ (createHash crypto chunkHashHook c1).moduleHashes,
       p.2 = p.1.take c1.outputOptions.hashDigestLength) ∧
    (∀ p ∈ (createHash crypto chunkHashHook c1).chunkHashes,
       p.2 = p.1.take c1.outputOptions.hashDigestLength) ∧
    (createHash crypto chunkHashHook c1).hash =
      (createHash crypto chunkHashHook c1).fullHash.take
        c1.outputOptions.hashDigestLength := by
  refine ⟨?_, ?_, ?_, rfl⟩
  · obtain ⟨m1, k1, n1, w1, e1, t1, u1, v1, o1, a1⟩ := c1
    obtain ⟨m2, k2, n2, w2, e2, t2, u2, v2, o2, a2⟩ := c2
    simp only at hm hc hch he hw ht1 ht2 ht3 ho
    subst hm hc hch he hw ht1 ht2 ht3 ho
    rfl
  · intro p hp
    simp only [createHash, List.mem_map] at hp
    obtain ⟨m, -, hm2⟩ := hp
    rw [← hm2]
  · intro p hp
    simp only [createHash, List.mem_map] at hp
    obtain ⟨ch, -, hc2⟩ := hp
    rw [← hc2]

/-- Witness for C6: two concrete compilations differing only in `assets`
yield identical hash results. -/
theorem C6_createHash_deterministic_witness :
    let oo : OutputOptions := ⟨"md4", "hex", 4, none⟩
    let tpl : HTemplate := ⟨["t"], fun _ => ["tc"]⟩
    let c1 : HCompilation :=
      ⟨[⟨["m1"]⟩], [⟨["k1"], true⟩], [], [], [], tpl, tpl, [("javascript", tpl)], oo,
        [("x.js", "src")]⟩
    let c2 : HCompilation :=
      ⟨[⟨["m1"]⟩], [⟨["k1"], true⟩], [], [], [], tpl, tpl, [("javascript", tpl)], oo, []⟩
    let crypto : String → String → List String → String :=
      fun _ _ updates => String.join updates
    createHash crypto (fun _ => []) c1 = createHash crypto (fun _ => []) c2 := by
  intro oo tpl c1 c2 crypto
  exact (C6_createHash_deterministic crypto (fun _ => []) c1 c2
    rfl rfl rfl rfl rfl rfl rfl rfl rfl).1

/-! ## C2 — id assignment (`applyModuleIds`, `applyChunkIds`) and
`checkConstraints`

Ids are JS numbers or `null`; here `Option Nat`.  JS truthiness makes an id of
`0` falsy, which is the crux of this claim. -/

/-- One step of the module scan of `applyModuleIds`
(`if(module1.id && !usedIdMap[module1.id])`, Compilation.js:1185) — an id of 0
is *falsy* and therefore skipped. -/
def collectModuleIdStep (acc : List Nat) (mid : Option Nat) : List Nat :=
  match mid with
  | some id => if id ≠ 0 ∧ id ∉ acc then acc ++ [id] else acc
  | none => acc

/-- The `usedIds` collection of `applyModuleIds` (Compilation.js:1169-1189):
every value of `compilation.usedModuleIds`, then every *truthy* id already
carried by a module, deduplicated via `usedIdMap`. -/
def collectUsedIds (usedModuleIds : List Nat) (moduleIds : List (Option Nat)) :
    List Nat :=
  let fromUsed := usedModuleIds.foldl
    (fun acc id => if id ∈ acc then acc else acc ++ [id]) []
  moduleIds.foldl collectModuleIdStep fromUsed

/-- The assignment loop shared by `applyModuleIds` and `applyChunkIds`
(Compilation.js:1212-1221): an entry whose id is not `null` keeps it; a `null`
entry takes `unusedIds.pop()` when available, else `nextFreeId++`.  The unused
list is kept here in pop order (ascending), matching the LIFO pop of the
descending array the source builds. -/
def allocateIds : List (Option Nat) → List Nat → Nat → List (Option Nat)
  | [], _, _ => []
  | some n :: rest, unused, next => some n :: allocateIds rest unused next
  | none :: rest, u :: us, next => some u :: allocateIds rest us next
  | none :: rest, [], next => some next :: allocateIds rest [] (next + 1)

/-- `applyModuleIds()` (Compilation.js:1166-1222) acting on the sequence of
module ids.  All modelled ids are numeric, so the
`typeof usedIdKey !== "number"` skip never fires. -/
def applyModuleIds (usedModuleIds : List Nat) (moduleIds : List (Option Nat)) :
    List (Option Nat) :=
  let usedIds := collectUsedIds usedModuleIds moduleIds
  if usedIds.length > 0 then
    let usedIdMax := usedIds.foldl max 0
    let nextFreeModuleId := usedIdMax + 1
    let unusedIds := (List.range nextFreeModuleId).filter (· ∉ usedIds)
    allocateIds moduleIds unusedIds nextFreeModuleId
  else
    allocateIds moduleIds [] 0

/-- `if(!chunk.ids) chunk.ids = [chunk.id]` (Compilation.js:1260-1262). -/
def fillIds (id : Nat) : Option (List Nat) → Option (List Nat)
  | none => some [id]
  | some l => some l

/-- The chunk assignment loop of `applyChunkIds` on `(id, ids)` pairs. -/
def allocateChunkIds : List (Option Nat × Option (List Nat)) → List Nat → Nat →
    List (Option Nat × Option (List Nat))
  | [], _, _ => []
  | (some n, ids) :: rest, unused, next =>
    (some n, fillIds n ids) :: allocateChunkIds rest unused next
  | (none, ids) :: rest, u :: us, next =>
    (some u, fillIds u ids) :: allocateChunkIds rest us next
  | (none, ids) :: rest, [], next =>
    (some next, fillIds next ids) :: allocateChunkIds rest [] (next + 1)

/-- `applyChunkIds()` (Compilation.js:1224-1264).  `usedChunkIds` models the
record table, keyed by id with each entry mapping an id to itself (the source
checks `this.usedChunkIds[index] !== index`); `none` is an absent table. -/
def applyChunkIds (usedChunkIds : Option (List Nat))
    (chunks : List (Option Nat × Option (List Nat))) :
    List (Option Nat × Option (List Nat)) :=
  match usedChunkIds with
  | none => allocateChunkIds chunks [] 0
  | some reserved =>
    let nextFreeChunkId := reserved.foldl (fun acc v => max (acc - 1) v + 1) 0
    let unusedIds := (List.range nextFreeChunkId).filter (· ∉ reserved)
    allocateChunkIds chunks unusedIds nextFreeChunkId

/-- `usedIds[moduleId]` as a JS truthiness test (`undefined` for a missing
key, hence false). -/
def jsTruthyLookup (usedIds : List Nat) : Option Nat → Bool
  | some n => usedIds.contains n
  | none => false

/-- The loop body of the module-id part of `checkConstraints`. -/
def checkConstraintsModulesLoop (usedIds : List Nat) :
    List (Option Nat) → Option String
  | [] => none
  | mid :: rest =>
    if jsTruthyLookup usedIds mid then some "checkConstraints: duplicate module id"
    else checkConstraintsModulesLoop usedIds rest

/-- The module-id duplicate check of `checkConstraints()`
(Compilation.js:1479-1488).  As in the source, `usedIds` starts as the empty
table and is never extended inside the loop. -/
def checkConstraintsModules (moduleIds : List (Option Nat)) : Option String :=
  checkConstraintsModulesLoop [] moduleIds

/-- Counterexample to C2: a module carrying id 0 is not collected as used
(`module1.id` is falsy), so `applyModuleIds` hands 0 out again and the modules
list ends with duplicate ids; `checkConstraints` raises no error on the
duplicate; `applyChunkIds` likewise duplicates a carried chunk id 0. -/
theorem C2_counterexample :
    collectUsedIds [] [some 0, none] = [] ∧
    applyModuleIds [] [some 0, none] = [some 0, some 0] ∧
    ¬ (applyModuleIds [] [some 0, none]).Nodup ∧
    checkConstraintsModules [some 0, some 0] = none ∧
    applyChunkIds none [(some 0, some [0]), (none, none)] =
      [(some 0, some [0]), (some 0, some [0])] ∧
    ¬ ((applyChunkIds none [(some 0, some [0]), (none, none)]).map Prod.fst).Nodup := by
  decide

/-! Helper lemmas for the amended C2. -/

theorem mem_foldl_collectStep (mods : List (Option Nat)) :
    ∀ acc : List Nat, ∀ n ∈ acc, n ∈ mods.foldl collectModuleIdStep acc := by
  induction mods with
  | nil => intro acc n hn; simpa using hn
  | cons hd rest ih =>
    intro acc n hn
    rw [List.foldl_cons]
    apply ih
    cases hd with
    | none => exact hn
    | some id =>
      simp only [collectModuleIdStep]
      split
      · exact List.mem_append_left _ hn
      · exact hn

theorem some_mem_foldl_collectStep (mods : List (Option Nat)) :
    ∀ acc : List Nat, ∀ n, some n ∈ mods → n ≠ 0 →
      n ∈ mods.foldl collectModuleIdStep acc := by
  induction mods with
  | nil => intro acc n hn; simp at hn
  | cons hd rest ih =>
    intro acc n hn hn0
    rw [List.foldl_cons]
    rcases List.mem_cons.mp hn with hn | hn
    · subst hn
      apply mem_foldl_collectStep
      simp only [collectModuleIdStep]
      by_cases hmem : n ∈ acc
      · split
        · exact List.mem_append_left _ hmem
        · exact hmem
      · rw [if_pos ⟨hn0, hmem⟩]
        exact List.mem_append_right _ (List.mem_singleton_self n)
    · exact ih _ n hn hn0

theorem mem_collectUsedIds (usedModuleIds : List Nat) (moduleIds : List (Option Nat))
    (n : Nat) (hn : some n ∈ moduleIds) (hn0 : n ≠ 0) :
    n ∈ collectUsedIds usedModuleIds moduleIds := by
  unfold collectUsedIds
  exact some_mem_foldl_collectStep moduleIds _ n hn hn0

theorem init_le_foldl_max (l : List Nat) (a : Nat) : a ≤ l.foldl max a := by
  induction l generalizing a with
  | nil => exact le_refl a
  | cons hd tl ih =>
    rw [List.foldl_cons]
    exact le_trans (le_max_left a hd) (ih _)

theorem le_foldl_max (l : List Nat) (a : Nat) : ∀ x ∈ l, x ≤ l.foldl max a := by
  induction l generalizing a with
  | nil => simp
  | cons hd tl ih =>
    intro x hx
    rw [List.foldl_cons]
    rcases List.mem_cons.mp hx with hx | hx
    · subst hx
      exact le_trans (le_max_right a x) (init_le_foldl_max tl _)
    · exact ih _ x hx

theorem init_le_foldl_chunkNext (l : List Nat) (a : Nat) :
    a ≤ l.foldl (fun acc v => max (acc - 1) v + 1) a := by
  induction l generalizing a with
  | nil => exact le_refl a
  | cons hd tl ih =>
    rw [List.foldl_cons]
    refine le_trans ?_ (ih (max (a - 1) hd + 1))
    have h := le_max_left (a - 1) hd
    omega

theorem lt_foldl_chunkNext (l : List Nat) (a : Nat) :
    ∀ x ∈ l, x < l.foldl (fun acc v => max (acc - 1) v + 1) a := by
  induction l generalizing a with
  | nil => simp
  | cons hd tl ih =>
    intro x hx
    rw [List.foldl_cons]
    rcases List.mem_cons.mp hx with hx | hx
    · subst hx
      refine lt_of_lt_of_le ?_ (init_le_foldl_chunkNext tl _)
      have h := le_max_right (a - 1) x
      omega
    · exact ih _ x hx

/-- Correctness of the shared assignment loop: under the invariants of the
unused-hole list, the resulting ids are all set, pairwise distinct, carried
ids are kept in place, and a `null` entry never receives an id from `used`. -/
theorem allocateIds_spec (used : List Nat) (mods : List (Option Nat)) :
    ∀ (unused : List Nat) (next : Nat),
      unused.Pairwise (· < ·) →
      (∀ u ∈ unused, u < next) →
      (∀ u ∈ unused, u ∉ used) →
      (∀ k, next ≤ k → k ∉ used) →
      (∀ n, some n ∈ mods → n ∈ used) →
      mods.reduceOption.Nodup →
      (allocateIds mods unused next).Nodup ∧
      (∀ v, some v ∈ allocateIds mods unused next →
         some v ∈ mods ∨ (v ∉ used ∧ (v ∈ unused ∨ next ≤ v))) ∧
      (∀ x ∈ allocateIds mods unused next, x.isSome) ∧
      List.Forall₂ (fun m x =>
          (∀ n, m = some n → x = some n) ∧ (m = none → ∃ v, x = some v ∧ v ∉ used))
        mods (allocateIds mods unused next) := by
  induction mods with
  | nil =>
    intro unused next _ _ _ _ _ _
    exact ⟨by simp [allocateIds], by simp [allocateIds], by simp [allocateIds],
      by simp [allocateIds]⟩
  | cons hd rest ih =>
    intro unused next hpw hlt hnu hge hcar hnd
    cases hd with
    | some n =>
      have hcar' : ∀ m, some m ∈ rest → m ∈ used :=
        fun m hm => hcar m (List.mem_cons_of_mem _ hm)
      rw [List.reduceOption_cons_of_some] at hnd
      have hn_notin : n ∉ rest.reduceOption := (List.nodup_cons.mp hnd).1
      obtain ⟨ihN, ihM, ihS, ihF⟩ :=
        ih unused next hpw hlt hnu hge hcar' (List.nodup_cons.mp hnd).2
      simp only [allocateIds]
      refine ⟨?_, ?_, ?_, ?_⟩
      · refine List.nodup_cons.mpr ⟨?_, ihN⟩
        intro hmem
        rcases ihM n hmem with h | ⟨hnu2, -⟩
        · exact hn_notin (List.reduceOption_mem_iff.mpr h)
        · exact hnu2 (hcar n (List.mem_cons_self _ _))
      · intro v hv
        rcases List.mem_cons.mp hv with hv | hv
        · injection hv with hv
          subst hv
          exact Or.inl (List.mem_cons_self _ _)
        · rcases ihM v hv with h | h
          · exact Or.inl (List.mem_cons_of_mem _ h)
          · exact Or.inr h
      · intro x hx
        rcases List.mem_cons.mp hx with hx | hx
        · subst hx; rfl
        · exact ihS x hx
      · exact List.Forall₂.cons ⟨fun n' h => h, fun h => Option.noConfusion h⟩ ihF
    | none =>
      have hcar' : ∀ m, some m ∈ rest → m ∈ used :=
        fun m hm => hcar m (List.mem_cons_of_mem _ hm)
      rw [List.reduceOption_cons_of_none] at hnd
      cases unused with
      | nil =>
        have hge' : ∀ k, next + 1 ≤ k → k ∉ used := fun k hk => hge k (by omega)
        obtain ⟨ihN, ihM, ihS, ihF⟩ :=
          ih [] (next + 1) List.Pairwise.nil (by simp) (by simp) hge' hcar' hnd
        have hnext : next ∉ used := hge next le_rfl
        simp only [allocateIds]
        refine ⟨?_, ?_, ?_, ?_⟩
        · refine List.nodup_cons.mpr ⟨?_, ihN⟩
          intro hmem
          rcases ihM next hmem with h | ⟨-, h | h⟩
          · exact hnext (hcar' next h)
          · exact absurd h (List.not_mem_nil next)
          · omega
        · intro v hv
          rcases List.mem_cons.mp hv with hv | hv
          · injection hv with hv
            subst hv
            exact Or.inr ⟨hnext, Or.inr le_rfl⟩
          · rcases ihM v hv with h | ⟨h1, h2 | h2⟩
            · exact Or.inl (List.mem_cons_of_mem _ h)
            · exact absurd h2 (List.not_mem_nil v)
            · exact Or.inr ⟨h1, Or.inr (by omega)⟩
        · intro x hx
          rcases List.mem_cons.mp hx with hx | hx
          · subst hx; rfl
          · exact ihS x hx
        · exact List.Forall₂.cons
            ⟨fun n' h => Option.noConfusion h, fun _ => ⟨next, rfl, hnext⟩⟩ ihF
      | cons u us =>
        have hu_us := (List.pairwise_cons.mp hpw).1
        have hpw' := (List.pairwise_cons.mp hpw).2
        have hu_lt : u < next := hlt u (List.mem_cons_self _ _)
        have hu_nu : u ∉ used := hnu u (List.mem_cons_self _ _)
        have hlt' : ∀ y ∈ us, y < next := fun y hy => hlt y (List.mem_cons_of_mem _ hy)
        have hnu' : ∀ y ∈ us, y ∉ used := fun y hy => hnu y (List.mem_cons_of_mem _ hy)
        obtain ⟨ihN, ihM, ihS, ihF⟩ := ih us next hpw' hlt' hnu' hge hcar' hnd
        simp only [allocateIds]
        refine ⟨?_, ?_, ?_, ?_⟩
        · refine List.nodup_cons.mpr ⟨?_, ihN⟩
          intro hmem
          rcases ihM u hmem with h | ⟨-, h | h⟩
          · exact hu_nu (hcar' u h)
          · exact absurd (hu_us u h) (lt_irrefl u)
          · omega
        · intro v hv
          rcases List.mem_cons.mp hv with hv | hv
          · injection hv with hv
            subst hv
            exact Or.inr ⟨hu_nu, Or.inl (List.mem_cons_self _ _)⟩
          · rcases ihM v hv with h | ⟨h1, h2 | h2⟩
            · exact Or.inl (List.mem_cons_of_mem _ h)
            · exact Or.inr ⟨h1, Or.inl (List.mem_cons_of_mem _ h2)⟩
            · exact Or.inr ⟨h1, Or.inr h2⟩
        · intro x hx
          rcases List.mem_cons.mp hx with hx | hx
          · subst hx; rfl
          · exact ihS x hx
        · exact List.Forall₂.cons
            ⟨fun n' h => Option.noConfusion h, fun _ => ⟨u, rfl, hu_nu⟩⟩ ihF

theorem applyModuleIds_spec (usedModuleIds : List Nat) (moduleIds : List (Option Nat))
    (hm0 : ∀ n, some n ∈ moduleIds → n ≠ 0)
    (hmd : moduleIds.reduceOption.Nodup) :
    (applyModuleIds usedModuleIds moduleIds).Nodup ∧
    (∀ x ∈ applyModuleIds usedModuleIds moduleIds, x.isSome) ∧
    List.Forall₂ (fun m x =>
      (∀ n, m = some n → x = some n) ∧
      (m = none → ∃ v, x = some v ∧ v ∉ collectUsedIds usedModuleIds moduleIds))
      moduleIds (applyModuleIds usedModuleIds moduleIds) := by
  have hcar : ∀ n, some n ∈ moduleIds → n ∈ collectUsedIds usedModuleIds moduleIds :=
    fun n hn => mem_collectUsedIds usedModuleIds moduleIds n hn (hm0 n hn)
  unfold applyModuleIds
  by_cases hlen : (collectUsedIds usedModuleIds moduleIds).length > 0
  · rw [if_pos hlen]
    have h := allocateIds_spec (collectUsedIds usedModuleIds moduleIds) moduleIds
      ((List.range ((collectUsedIds usedModuleIds moduleIds).foldl max 0 + 1)).filter
        (· ∉ collectUsedIds usedModuleIds moduleIds))
      ((collectUsedIds usedModuleIds moduleIds).foldl max 0 + 1)
      ((List.pairwise_lt_range _).filter _)
      (by
        intro u hu
        have hm := (List.mem_filter.mp hu).1
        exact List.mem_range.mp hm)
      (by
        intro u hu
        have hm := (List.mem_filter.mp hu).2
        simpa using hm)
      (by
        intro k hk hmem
        have := le_foldl_max _ 0 k hmem
        omega)
      hcar hmd
    exact ⟨h.1, h.2.2.1, h.2.2.2⟩
  · rw [if_neg hlen]
    have hempty : collectUsedIds usedModuleIds moduleIds = [] := by
      cases h : collectUsedIds usedModuleIds moduleIds with
      | nil => rfl
      | cons a l => rw [h] at hlen; simp at hlen
    have h := allocateIds_spec (collectUsedIds usedModuleIds moduleIds) moduleIds [] 0
      List.Pairwise.nil (by simp) (by simp)
      (by intro k _ hmem; rw [hempty] at hmem; exact List.not_mem_nil k hmem)
      hcar hmd
    exact ⟨h.1, h.2.2.1, h.2.2.2⟩

theorem allocateChunkIds_map_fst (chunks : List (Option Nat × Option (List Nat))) :
    ∀ unused next, (allocateChunkIds chunks unused next).map Prod.fst =
      allocateIds (chunks.map Prod.fst) unused next := by
  induction chunks with
  | nil => intro unused next; rfl
  | cons hd rest ih =>
    intro unused next
    obtain ⟨mid, ids⟩ := hd
    cases mid with
    | some n => simp [allocateChunkIds, allocateIds, ih]
    | none =>
      cases unused with
      | nil => simp [allocateChunkIds, allocateIds, ih]
      | cons u us => simp [allocateChunkIds, allocateIds, ih]

theorem applyChunkIds_spec (usedChunkIds : Option (List Nat))
    (chunks : List (Option Nat × Option (List Nat)))
    (hcr : ∀ n, some n ∈ chunks.map Prod.fst → ∃ r, usedChunkIds = some r ∧ n ∈ r)
    (hcd : (chunks.map Prod.fst).reduceOption.Nodup) :
    ((applyChunkIds usedChunkIds chunks).map Prod.fst).Nodup ∧
    (∀ x ∈ (applyChunkIds usedChunkIds chunks).map Prod.fst, x.isSome) := by
  cases usedChunkIds with
  | none =>
    have hcar : ∀ n, some n ∈ chunks.map Prod.fst → n ∈ ([] : List Nat) := by
      intro n hn
      obtain ⟨r, hr, -⟩ := hcr n hn
      cases hr
    unfold applyChunkIds
    rw [allocateChunkIds_map_fst]
    have h := allocateIds_spec [] (chunks.map Prod.fst) [] 0
      List.Pairwise.nil (by simp) (by simp) (by intro k _; simp) hcar hcd
    exact ⟨h.1, h.2.2.1⟩
  | some reserved =>
    have hcar : ∀ n, some n ∈ chunks.map Prod.fst → n ∈ reserved := by
      intro n hn
      obtain ⟨r, hr, hmem⟩ := hcr n hn
      injection hr with hr
      subst hr
      exact hmem
    unfold applyChunkIds
    rw [allocateChunkIds_map_fst]
    have h := allocateIds_spec reserved (chunks.map Prod.fst)
      ((List.range (reserved.foldl (fun acc v => max (acc - 1) v + 1) 0)).filter
        (· ∉ reserved))
      (reserved.foldl (fun acc v => max (acc - 1) v + 1) 0)
      ((List.pairwise_lt_range _).filter _)
      (by
        intro u hu
        exact List.mem_range.mp (List.mem_filter.mp hu).1)
      (by
        intro u hu
        simpa using (List.mem_filter.mp hu).2)
      (by
        intro k hk hmem
        have := lt_foldl_chunkNext reserved 0 k hmem
        omega)
      hcar hcd
    exact ⟨h.1, h.2.2.1⟩

theorem checkConstraintsModules_eq_none (moduleIds : List (Option Nat)) :
    checkConstraintsModules moduleIds = none := by
  unfold checkConstraintsModules
  induction moduleIds with
  | nil => rfl
  | cons mid rest ih =>
    have : jsTruthyLookup [] mid = false := by cases mid <;> rfl
    simp [checkConstraintsModulesLoop, this, ih]

/-- C2 amended: `applyModuleIds` collects as used every *nonzero* id already
carried by a module together with every caller reservation in
`usedModuleIds`, and never assigns one of those used ids to a module whose id
is null; hence when every carried module id is nonzero and the carried ids
are pairwise distinct, the modules list ends with numeric, pairwise distinct
ids.  `applyChunkIds` analogously yields pairwise distinct chunk ids when the
carried chunk ids are pairwise distinct and all reserved in `usedChunkIds`.
`checkConstraints` raises *no* error for duplicated module ids (its `usedIds`
table is never populated), so the duplicate check is vacuous. -/
theorem C2_id_uniqueness (usedModuleIds : List Nat) (moduleIds : List (Option Nat))
    (usedChunkIds : Option (List Nat))
    (chunks : List (Option Nat × Option (List Nat)))
    (hm0 : ∀ n, some n ∈ moduleIds → n ≠ 0)
    (hmd : moduleIds.reduceOption.Nodup)
    (hcr : ∀ n, some n ∈ chunks.map Prod.fst → ∃ r, usedChunkIds = some r ∧ n ∈ r)
    (hcd : (chunks.map Prod.fst).reduceOption.Nodup) :
    (applyModuleIds usedModuleIds moduleIds).Nodup ∧
    (∀ x ∈ applyModuleIds usedModuleIds moduleIds, x.isSome) ∧
    List.Forall₂ (fun m x =>
      (∀ n, m = some n → x = some n) ∧
      (m = none → ∃ v, x = some v ∧ v ∉ collectUsedIds usedModuleIds moduleIds))
      moduleIds (applyModuleIds usedModuleIds moduleIds) ∧
    ((applyChunkIds usedChunkIds chunks).map Prod.fst).Nodup ∧
    (∀ x ∈ (applyChunkIds usedChunkIds chunks).map Prod.fst, x.isSome) ∧
    (∀ ids, checkConstraintsModules ids = none) := by
  obtain ⟨h1, h2, h3⟩ := applyModuleIds_spec usedModuleIds moduleIds hm0 hmd
  obtain ⟨h4, h5⟩ := applyChunkIds_spec usedChunkIds chunks hcr hcd
  exact ⟨h1, h2, h3, h4, h5, checkConstraintsModules_eq_none⟩

/-- Witness for the amended C2: reserved id 1, a module carrying id 2, two
null modules; and chunks with a carried reserved id. -/
theorem C2_id_uniqueness_witness :
    (applyModuleIds [1] [some 2, none, none]).Nodup ∧
    ((applyChunkIds (some [1]) [(some 1, none), (none, none)]).map Prod.fst).Nodup := by
  refine ⟨(C2_id_uniqueness [1] [some 2, none, none] (some [1])
      [(some 1, none), (none, none)] ?_ ?_ ?_ ?_).1,
    (C2_id_uniqueness [1] [some 2, none, none] (some [1])
      [(some 1, none), (none, none)] ?_ ?_ ?_ ?_).2.2.2.1⟩ <;>
  first
    | (intro n hn
       rcases List.mem_cons.mp hn with h | h
       · injection h with h; omega
       · simp at h)
    | decide
    | (intro n hn
       refine ⟨[1], rfl, ?_⟩
       rcases List.mem_cons.mp hn with h | h
       · injection h with h; subst h; exact List.mem_singleton_self 1
       · simp at h)

/-! ## C1 / C9 — the module graph and the `GraphLabeller`

A module is a `DependenciesBlock`; the labelling algorithms consult, of each
dependency, only its `module` pointer.  Module identities are `Nat`, so a
graph is `Nat → DepBlock`. -/

/-- A `DependenciesBlock`: `variables` (each carrying its own dependency
list), `dependencies`, and nested `blocks`.  A dependency is represented by
its `module` pointer. -/
inductive DepBlock where
  | mk («variables» : List (List (Option Nat))) (dependencies : List (Option Nat))
      (blocks : List DepBlock)

mutual
/-- All dependency targets in a block's tree, in the traversal order of
`assignDepth` (variables, then dependencies, then nested blocks in order).
Every one of them is one edge away from the module owning the block
(`assignDepthToDependencyBlock` passes the same `depth` down to nested
blocks). -/
def blockSuccs : DepBlock → List Nat
  | .mk vars deps blocks =>
    vars.flatten.reduceOption ++ deps.reduceOption ++ blockSuccsList blocks

/-- Dependency targets of a list of nested blocks. -/
def blockSuccsList : List DepBlock → List Nat
  | [] => []
  | b :: bs => blockSuccs b ++ blockSuccsList bs
end

/-- A module graph: module identity → the module's own block. -/
abbrev ModGraph : Type := Nat → DepBlock

/-- The dependency successors of module `m`. -/
def succs (g : ModGraph) (m : Nat) : List Nat := blockSuccs (g m)

/-- `Steps g a b k`: a dependency path of `k` edges from module `a` to `b`. -/
inductive Steps (g : ModGraph) (a : Nat) : Nat → Nat → Prop
  | refl : Steps g a a 0
  | tail {b c : Nat} {k : Nat} : Steps g a b k → c ∈ succs g b → Steps g a c (k + 1)

/-- `b` is reachable from `a` along dependency edges. -/
def ReachesG (g : ModGraph) (a b : Nat) : Prop := ∃ k, Steps g a b k

/-- One visit of `assignDepthToModule(module, depth)` pushes, for each
dependency target in the module's block tree, the closure
`assignDepthToModule(target, depth + 1)`. -/
def assignDepthPushes (g : ModGraph) (m : Nat) (depth : Nat) : List (Nat × Nat) :=
  (succs g m).map (fun t => (t, depth + 1))

/-- `assignDepth(module)` (Compilation.js:845-886) as an explicit-stack loop
with fuel (head of the list = top of the JS stack; the JS stack pops the
*last* push first, hence the `reverse`): pop `(m, d)`; skip when `m.depth` is
already a number ≤ `d`, else set `m.depth = d` and push the successors at
`d + 1`.  `none` when the fuel runs out before the stack empties. -/
def assignDepthRun (g : ModGraph) :
    Nat → List (Nat × Nat) → (Nat → Option Nat) → Option (Nat → Option Nat)
  | _, [], depths => some depths
  | 0, _ :: _, _ => none
  | fuel + 1, (m, d) :: rest, depths =>
    match depths m with
    | some cur =>
      if cur ≤ d then assignDepthRun g fuel rest depths
      else
        assignDepthRun g fuel ((assignDepthPushes g m d).reverse ++ rest)
          (fun x => if x = m then some d else depths x)
    | none =>
      assignDepthRun g fuel ((assignDepthPushes g m d).reverse ++ rest)
        (fun x => if x = m then some d else depths x)

/-- `assignDepth(root)` on a graph whose depths are all unset. -/
def assignDepth (g : ModGraph) (fuel : Nat) (root : Nat) :
    Option (Nat → Option Nat) :=
  assignDepthRun g fuel [(root, 0)] (fun _ => none)

/-- Worklist invariant of `assignDepth`: every recorded depth and stack entry
is witnessed by a real path from the root, and every labelled module has each
successor either labelled within its depth + 1 or pending on the stack within
its depth + 1. -/
def DepthInv (g : ModGraph) (root : Nat) (stack : List (Nat × Nat))
    (depths : Nat → Option Nat) : Prop :=
  (∀ m d, depths m = some d → Steps g root m d) ∧
  (∀ p ∈ stack, Steps g root p.1 p.2) ∧
  (∀ m d, depths m = some d → ∀ t ∈ succs g m,
    (∃ d', depths t = some d' ∧ d' ≤ d + 1) ∨ (∃ d'', d'' ≤ d + 1 ∧ (t, d'') ∈ stack))

/-- Relaxing `m` to depth `d` (fresh, or strictly smaller than the current
value) and pushing its successors preserves the worklist invariant. -/
theorem DepthInv_assign (g : ModGraph) (root : Nat) (m d : Nat)
    (rest : List (Nat × Nat)) (depths : Nat → Option Nat)
    (hinv : DepthInv g root ((m, d) :: rest) depths)
    (hcase : depths m = none ∨ ∃ cur, depths m = some cur ∧ d < cur) :
    DepthInv g root ((assignDepthPushes g m d).reverse ++ rest)
      (fun x => if x = m then some d else depths x) := by
  obtain ⟨h1, h2, h3⟩ := hinv
  have hstep_m : Steps g root m d := h2 (m, d) (List.mem_cons_self _ _)
  refine ⟨?_, ?_, ?_⟩
  · intro m0 d0 h
    dsimp only at h
    by_cases hx : m0 = m
    · subst hx
      rw [if_pos rfl] at h
      injection h with h
      subst h
      exact hstep_m
    · rw [if_neg hx] at h
      exact h1 m0 d0 h
  · intro p hp
    rcases List.mem_append.mp hp with hp | hp
    · rw [List.mem_reverse] at hp
      simp only [assignDepthPushes, List.mem_map] at hp
      obtain ⟨t, ht, hpt⟩ := hp
      subst hpt
      exact Steps.tail hstep_m ht
    · exact h2 p (List.mem_cons_of_mem _ hp)
  · intro m0 d0 h t ht
    dsimp only at h
    by_cases hx : m0 = m
    · subst hx
      rw [if_pos rfl] at h
      injection h with h
      subst h
      right
      refine ⟨d + 1, le_rfl, ?_⟩
      apply List.mem_append_left
      rw [List.mem_reverse]
      simp only [assignDepthPushes, List.mem_map]
      exact ⟨t, ht, rfl⟩
    · rw [if_neg hx] at h
      rcases h3 m0 d0 h t ht with ⟨d', hd', hle⟩ | ⟨d'', hle, hmem⟩
      · by_cases htx : t = m
        · subst htx
          left
          refine ⟨d, by simp, ?_⟩
          rcases hcase with hnone | ⟨cur, hcur, hlt⟩
          · rw [hnone] at hd'; cases hd'
          · rw [hcur] at hd'
            injection hd' with hd'
            omega
        · left
          exact ⟨d', by dsimp only; rw [if_neg htx]; exact hd', hle⟩
      · rcases List.mem_cons.mp hmem with hmem | hmem
        · have ht_eq : t = m := congrArg Prod.fst hmem
          have hd_eq : d'' = d := congrArg Prod.snd hmem
          left
          exact ⟨d, by dsimp only; rw [if_pos ht_eq], hd_eq ▸ hle⟩
        · right
          exact ⟨d'', hle, List.mem_append_right _ hmem⟩

/-- Skipping `(m, d)` because `m.depth ≤ d` already preserves the invariant. -/
theorem DepthInv_skip (g : ModGraph) (root : Nat) (m d cur : Nat)
    (rest : List (Nat × Nat)) (depths : Nat → Option Nat)
    (hinv : DepthInv g root ((m, d) :: rest) depths)
    (hm : depths m = some cur) (hle : cur ≤ d) :
    DepthInv g root rest depths := by
  obtain ⟨h1, h2, h3⟩ := hinv
  refine ⟨h1, fun p hp => h2 p (List.mem_cons_of_mem _ hp), ?_⟩
  intro m0 d0 h t ht
  rcases h3 m0 d0 h t ht with h' | ⟨d'', hle'', hmem⟩
  · left; exact h'
  · rcases List.mem_cons.mp hmem with hmem | hmem
    · have ht_eq : t = m := congrArg Prod.fst hmem
      have hd_eq : d'' = d := congrArg Prod.snd hmem
      left
      exact ⟨cur, ht_eq ▸ hm, by omega⟩
    · right; exact ⟨d'', hle'', hmem⟩

/-- When a run of `assignDepth`'s loop completes from an invariant state, the
final labelling is path-witnessed, closed under edges (each successor within
+1), and extends the starting labelling without ever increasing a depth. -/
theorem assignDepthRun_final (g : ModGraph) (root : Nat) :
    ∀ (fuel : Nat) (stack : List (Nat × Nat)) (depths D : Nat → Option Nat),
      DepthInv g root stack depths →
      assignDepthRun g fuel stack depths = some D →
      (∀ m d, D m = some d → Steps g root m d) ∧
      (∀ m d, D m = some d → ∀ t ∈ succs g m, ∃ d', D t = some d' ∧ d' ≤ d + 1) ∧
      (∀ m d, depths m = some d → ∃ d', d' ≤ d ∧ D m = some d') := by
  intro fuel
  induction fuel with
  | zero =>
    intro stack depths D hinv hrun
    cases stack with
    | nil =>
      simp only [assignDepthRun] at hrun
      injection hrun with hrun
      subst hrun
      obtain ⟨h1, h2, h3⟩ := hinv
      refine ⟨h1, ?_, fun m d hd => ⟨d, le_rfl, hd⟩⟩
      intro m d hd t ht
      rcases h3 m d hd t ht with h | ⟨d'', hle, hmem⟩
      · exact h
      · exact absurd hmem (List.not_mem_nil _)
    | cons p rest =>
      obtain ⟨m, d⟩ := p
      simp only [assignDepthRun] at hrun
      cases hrun
  | succ fuel ih =>
    intro stack depths D hinv hrun
    cases stack with
    | nil =>
      simp only [assignDepthRun] at hrun
      injection hrun with hrun
      subst hrun
      obtain ⟨h1, h2, h3⟩ := hinv
      refine ⟨h1, ?_, fun m d hd => ⟨d, le_rfl, hd⟩⟩
      intro m d hd t ht
      rcases h3 m d hd t ht with h | ⟨d'', hle, hmem⟩
      · exact h
      · exact absurd hmem (List.not_mem_nil _)
    | cons p rest =>
      obtain ⟨m, d⟩ := p
      simp only [assignDepthRun] at hrun
      rcases hm : depths m with _ | cur
      · simp only [hm] at hrun
        have hinv' := DepthInv_assign g root m d rest depths hinv (Or.inl hm)
        obtain ⟨c1, c2, c3⟩ := ih _ _ D hinv' hrun
        refine ⟨c1, c2, ?_⟩
        intro m0 d0 h0
        by_cases hx : m0 = m
        · subst hx
          rw [hm] at h0
          cases h0
        · obtain ⟨d', hle, hD⟩ := c3 m0 d0 (by simpa [hx] using h0)
          exact ⟨d', hle, hD⟩
      · simp only [hm] at hrun
        by_cases hc : cur ≤ d
        · rw [if_pos hc] at hrun
          have hinv' := DepthInv_skip g root m d cur rest depths hinv hm hc
          exact ih _ _ D hinv' hrun
        · rw [if_neg hc] at hrun
          have hinv' := DepthInv_assign g root m d rest depths hinv
            (Or.inr ⟨cur, hm, by omega⟩)
          obtain ⟨c1, c2, c3⟩ := ih _ _ D hinv' hrun
          refine ⟨c1, c2, ?_⟩
          intro m0 d0 h0
          by_cases hx : m0 = m
          · subst hx
            rw [hm] at h0
            injection h0 with h0
            subst h0
            obtain ⟨d', hle, hD⟩ := c3 m0 d (by simp)
            exact ⟨d', by omega, hD⟩
          · obtain ⟨d', hle, hD⟩ := c3 m0 d0 (by simpa [hx] using h0)
            exact ⟨d', hle, hD⟩

/-- C1: after a completed `assignDepth(root)` run on an unlabelled (possibly
cyclic) module graph, the root module has depth 0 and every module reachable
from the root via dependency, variable-dependency and nested-block edges has a
numeric depth equal to the minimum number of such edges on any path from the
root to it. -/
theorem C1_assignDepth_minimal (g : ModGraph) (root fuel : Nat)
    (D : Nat → Option Nat) (h : assignDepth g fuel root = some D) :
    D root = some 0 ∧
    ∀ m, ReachesG g root m →
      ∃ d, D m = some d ∧ Steps g root m d ∧ ∀ k, Steps g root m k → d ≤ k := by
  unfold assignDepth at h
  cases fuel with
  | zero =>
    simp only [assignDepthRun] at h
    cases h
  | succ fuel =>
    simp only [assignDepthRun] at h
    have hinv0 : DepthInv g root [(root, 0)] (fun _ => none) := by
      refine ⟨fun m d hd => Option.noConfusion hd, ?_,
        fun m d hd => Option.noConfusion hd⟩
      intro p hp
      rcases List.mem_cons.mp hp with hp | hp
      · subst hp
        exact Steps.refl
      · exact absurd hp (List.not_mem_nil p)
    have hinv1 : DepthInv g root ((assignDepthPushes g root 0).reverse ++ [])
        (fun x => if x = root then some 0 else none) :=
      DepthInv_assign g root root 0 [] (fun _ => none) hinv0 (Or.inl rfl)
    obtain ⟨c1, c2, c3⟩ := assignDepthRun_final g root fuel _ _ _ hinv1 h
    have hroot : D root = some 0 := by
      obtain ⟨d', hle, hD⟩ := c3 root 0 (by simp)
      have hd0 : d' = 0 := Nat.le_zero.mp hle
      rw [hd0] at hD
      exact hD
    refine ⟨hroot, ?_⟩
    have upper : ∀ m k, Steps g root m k → ∃ d, D m = some d ∧ d ≤ k := by
      intro m k hk
      induction hk with
      | refl => exact ⟨0, hroot, le_rfl⟩
      | tail hsteps hmem ihs =>
        obtain ⟨db, hDb, hdb⟩ := ihs
        obtain ⟨d', hD', hle⟩ := c2 _ db hDb _ hmem
        exact ⟨d', hD', by omega⟩
    intro m hm
    obtain ⟨k, hk⟩ := hm
    obtain ⟨d, hD, hdk⟩ := upper m k hk
    refine ⟨d, hD, c1 m d hD, ?_⟩
    intro k' hk'
    obtain ⟨d2, hD2, hd2⟩ := upper m k' hk'
    rw [hD] at hD2
    injection hD2 with hD2
    omega

/-- A concrete cyclic graph: 0 → 1, 1 → 0, 1 → 2. -/
def gEx : ModGraph := fun n =>
  match n with
  | 0 => .mk [] [some 1] []
  | 1 => .mk [] [some 0, some 2] []
  | _ => .mk [] [] []

/-- Witness for C1: `assignDepth` terminates on the cyclic graph `gEx` and
labels the root with depth 0. -/
theorem C1_assignDepth_minimal_witness :
    ∃ D, assignDepth gEx 20 0 = some D ∧ D 0 = some 0 := by
  rcases hD : assignDepth gEx 20 0 with _ | D
  · have hs : (assignDepth gEx 20 0).isSome = true := by decide
    rw [hD] at hs
    cases hs
  · exact ⟨D, rfl, (C1_assignDepth_minimal gEx 0 20 D hD).1⟩

/-! ### C9 — `assignIndex` -/

/-- `allDependencies` of one block in `assignIndex`: the variables'
dependencies, then the block's own dependencies (Compilation.js:804-817). -/
def allDepsOf : DepBlock → List (Option Nat)
  | .mk vars deps _ => vars.flatten ++ deps

/-- The nested blocks of a block. -/
def subBlocksOf : DepBlock → List DepBlock
  | .mk _ _ blocks => blocks

/-- A deferred closure on the `assignIndex` work stack:
`enter m` is `assignIndexToModule(m)`; `leave m` is the deferred
`module.index2 = nextFreeModuleIndex2++`; `blk b` is
`assignIndexToDependencyBlock(b)`; `dep d` is `assignIndexToDependency(d)`. -/
inductive IdxTask where
  | enter (m : Nat)
  | leave (m : Nat)
  | blk (b : DepBlock)
  | dep (d : Option Nat)

/-- The state of `assignIndex`: both labellings, both counters, and a log of
the labelling events performed (`false` = an `index` assignment, `true` = an
`index2` assignment), which observes the once-only property. -/
structure IdxState where
  index : Nat → Option Nat
  index2 : Nat → Option Nat
  nextFreeModuleIndex : Nat
  nextFreeModuleIndex2 : Nat
  log : List (Bool × Nat)

/-- Tasks pushed when a block is expanded, in pop order: the JS code pushes
nested blocks in reverse array order and then `allDependencies` in reverse,
so on the LIFO stack the dependencies pop first, in array order, then the
nested blocks, in array order. -/
def blockPushes (b : DepBlock) : List IdxTask :=
  (allDepsOf b).map IdxTask.dep ++ (subBlocksOf b).map IdxTask.blk

/-- `assignIndex(module)` (Compilation.js:782-843) as an explicit-stack loop
with fuel (head of the list = top of the JS stack): entering an
already-indexed module is skipped; entering a fresh module takes
`nextFreeModuleIndex++`, defers its `leave` action below the block expansion,
and expands its block; a `leave` takes `nextFreeModuleIndex2++`
unconditionally. -/
def assignIndexRun (g : ModGraph) :
    Nat → List IdxTask → IdxState → Option IdxState
  | _, [], st => some st
  | 0, _ :: _, _ => none
  | fuel + 1, t :: rest, st =>
    match t with
    | .enter m =>
      match st.index m with
      | some _ => assignIndexRun g fuel rest st
      | none =>
        assignIndexRun g fuel (blockPushes (g m) ++ IdxTask.leave m :: rest)
          { st with
              index := fun x => if x = m then some st.nextFreeModuleIndex else st.index x
              nextFreeModuleIndex := st.nextFreeModuleIndex + 1
              log := st.log ++ [(false, m)] }
    | .leave m =>
      assignIndexRun g fuel rest
        { st with
            index2 := fun x =>
              if x = m then some st.nextFreeModuleIndex2 else st.index2 x
            nextFreeModuleIndex2 := st.nextFreeModuleIndex2 + 1
            log := st.log ++ [(true, m)] }
    | .dep d =>
      match d with
      | some m => assignIndexRun g fuel (IdxTask.enter m :: rest) st
      | none => assignIndexRun g fuel rest st
    | .blk b => assignIndexRun g fuel (blockPushes b ++ rest) st

/-- The unlabelled initial state (`seal` resets both counters to 0). -/
def freshIdx : IdxState := ⟨fun _ => none, fun _ => none, 0, 0, []⟩

/-- The modules a pending task guarantees to (eventually) enter. -/
def taskCov : IdxTask → List Nat
  | .enter m => [m]
  | .leave _ => []
  | .dep d => d.toList
  | .blk b => blockSuccs b

/-- Whether a task is the deferred `leave` action of module `m`. -/
def isLeave (m : Nat) : IdxTask → Bool
  | .leave m' => m' = m
  | _ => false

/-- The number of pending `leave m` actions on the stack. -/
def countLeave (stack : List IdxTask) (m : Nat) : Nat :=
  stack.countP (isLeave m)

/-- Worklist invariant of `assignIndex`: (a) each indexed module has every
successor indexed or covered by a pending task; (b) a module has exactly one
pending `leave` or `index2` label iff it is indexed; (c)/(d) the log holds
exactly one `index` (resp. `index2`) event per labelled module. -/
def IdxInv (g : ModGraph) (stack : List IdxTask) (st : IdxState) : Prop :=
  (∀ m, (st.index m).isSome → ∀ t ∈ succs g m,
     (st.index t).isSome ∨ ∃ task ∈ stack, t ∈ taskCov task) ∧
  (∀ m, countLeave stack m + (if (st.index2 m).isSome then 1 else 0)
        = (if (st.index m).isSome then 1 else 0)) ∧
  (∀ m, st.log.count (false, m) = (if (st.index m).isSome then 1 else 0)) ∧
  (∀ m, st.log.count (true, m) = (if (st.index2 m).isSome then 1 else 0))

theorem mem_blockSuccsList (bs : List DepBlock) (t : Nat) :
    t ∈ blockSuccsList bs ↔ ∃ b ∈ bs, t ∈ blockSuccs b := by
  induction bs with
  | nil => simp [blockSuccsList]
  | cons b bs ih => simp [blockSuccsList, ih]

/-- The tasks pushed for a block cover exactly the block's tree targets. -/
theorem cov_blockPushes (b : DepBlock) (t : Nat) :
    (∃ task ∈ blockPushes b, t ∈ taskCov task) ↔ t ∈ blockSuccs b := by
  cases b with
  | mk vars deps blocks =>
    constructor
    · rintro ⟨task, htask, hcov⟩
      rcases List.mem_append.mp htask with h | h
      · obtain ⟨d, hd, rfl⟩ := List.mem_map.mp h
        simp only [taskCov, Option.mem_toList] at hcov
        have : some t ∈ vars.flatten ++ deps := by
          rw [Option.mem_def] at hcov
          subst hcov
          simpa [allDepsOf] using hd
        simp only [blockSuccs]
        rcases List.mem_append.mp this with h' | h'
        · exact List.mem_append_left _ (List.mem_append_left _
            (List.reduceOption_mem_iff.mpr h'))
        · exact List.mem_append_left _ (List.mem_append_right _
            (List.reduceOption_mem_iff.mpr h'))
      · obtain ⟨bb, hbb, rfl⟩ := List.mem_map.mp h
        simp only [taskCov] at hcov
        simp only [blockSuccs]
        refine List.mem_append_right _ ?_
        rw [mem_blockSuccsList]
        exact ⟨bb, by simpa [subBlocksOf] using hbb, hcov⟩
    · intro ht
      simp only [blockSuccs] at ht
      rcases List.mem_append.mp ht with h | h
      · have hsome : some t ∈ allDepsOf (.mk vars deps blocks) := by
          rcases List.mem_append.mp h with h' | h'
          · exact List.mem_append_left _ (List.reduceOption_mem_iff.mp h')
          · exact List.mem_append_right _ (List.reduceOption_mem_iff.mp h')
        refine ⟨IdxTask.dep (some t), ?_, by simp [taskCov]⟩
        exact List.mem_append_left _ (List.mem_map_of_mem _ hsome)
      · rw [mem_blockSuccsList] at h
        obtain ⟨bb, hbb, hcov⟩ := h
        refine ⟨IdxTask.blk bb, ?_, hcov⟩
        exact List.mem_append_right _ (List.mem_map_of_mem _
          (by simpa [subBlocksOf] using hbb))

/-- `blockPushes` contains no `leave` actions. -/
theorem countLeave_blockPushes (b : DepBlock) (m : Nat) :
    countLeave (blockPushes b) m = 0 := by
  rw [countLeave, List.countP_eq_zero]
  intro task htask
  rcases List.mem_append.mp htask with h | h
  · obtain ⟨d, -, rfl⟩ := List.mem_map.mp h
    simp [isLeave]
  · obtain ⟨bb, -, rfl⟩ := List.mem_map.mp h
    simp [isLeave]

theorem countLeave_cons (task : IdxTask) (rest : List IdxTask) (m : Nat) :
    countLeave (task :: rest) m =
      countLeave rest m + (if isLeave m task then 1 else 0) := by
  simp [countLeave, List.countP_cons]

theorem countLeave_append (xs ys : List IdxTask) (m : Nat) :
    countLeave (xs ++ ys) m = countLeave xs m + countLeave ys m := by
  simp [countLeave, List.countP_append]

/-- Skipping `enter m` for an already-indexed module preserves the
invariant. -/
theorem IdxInv_skip (g : ModGraph) (m : Nat) (rest : List IdxTask) (st : IdxState)
    (hidx : (st.index m).isSome)
    (hinv : IdxInv g (IdxTask.enter m :: rest) st) : IdxInv g rest st := by
  obtain ⟨ha, hb, hc, hd⟩ := hinv
  refine ⟨?_, ?_, hc, hd⟩
  · intro m0 h0 t ht
    rcases ha m0 h0 t ht with h | ⟨task, htask, hcov⟩
    · exact Or.inl h
    · rcases List.mem_cons.mp htask with rfl | htask
      · simp only [taskCov, List.mem_singleton] at hcov
        subst hcov
        exact Or.inl hidx
      · exact Or.inr ⟨task, htask, hcov⟩
  · intro m0
    have := hb m0
    rwa [countLeave_cons, show isLeave m0 (IdxTask.enter m) = false from rfl,
      if_neg (by simp), Nat.add_zero] at this

/-- Entering a fresh module: assign its `index`, defer its `leave`, expand its
block.  Preserves the invariant. -/
theorem IdxInv_assign (g : ModGraph) (m : Nat) (rest : List IdxTask) (st : IdxState)
    (hidx : st.index m = none)
    (hinv : IdxInv g (IdxTask.enter m :: rest) st) :
    IdxInv g (blockPushes (g m) ++ IdxTask.leave m :: rest)
      { st with
          index := fun x => if x = m then some st.nextFreeModuleIndex else st.index x
          nextFreeModuleIndex := st.nextFreeModuleIndex + 1
          log := st.log ++ [(false, m)] } := by
  obtain ⟨ha, hb, hc, hd⟩ := hinv
  have hb_m := hb m
  rw [countLeave_cons, show isLeave m (IdxTask.enter m) = false from rfl,
    if_neg (by simp), Nat.add_zero, hidx] at hb_m
  simp only [Option.isSome_none, Bool.false_eq_true, if_neg, if_false] at hb_m
  have hcl0 : countLeave rest m = 0 := by omega
  have hi20 : (st.index2 m).isSome = false := by
    by_cases h : (st.index2 m).isSome <;> simp [h] at hb_m ⊢
  refine ⟨?_, ?_, ?_, ?_⟩
  · intro m0 h0 t ht
    dsimp only at h0
    by_cases hx : m0 = m
    · subst hx
      right
      have hcov := (cov_blockPushes (g m0) t).mpr ht
      obtain ⟨task, htask, hcov⟩ := hcov
      exact ⟨task, List.mem_append_left _ htask, hcov⟩
    · rw [if_neg hx] at h0
      rcases ha m0 h0 t ht with h | ⟨task, htask, hcov⟩
      · left
        dsimp only
        by_cases htx : t = m <;> simp [htx, h]
      · rcases List.mem_cons.mp htask with rfl | htask
        · simp only [taskCov, List.mem_singleton] at hcov
          subst hcov
          left
          simp
        · exact Or.inr ⟨task, List.mem_append_right _ (List.mem_cons_of_mem _ htask),
            hcov⟩
  · intro m0
    dsimp only
    rw [countLeave_append, countLeave_blockPushes, countLeave_cons, Nat.zero_add]
    by_cases hx : m0 = m
    · subst hx
      rw [if_pos (by simp [isLeave])]
      have := hb m0
      rw [countLeave_cons, show isLeave m0 (IdxTask.enter m0) = false from rfl,
        if_neg (by simp), Nat.add_zero] at this
      simp only [if_pos rfl, Option.isSome_some, if_true]
      rw [hidx] at this
      simp only [Option.isSome_none, Bool.false_eq_true, if_false] at this
      omega
    · rw [if_neg (by simp [isLeave, Ne.symm hx]), if_neg hx]
      have := hb m0
      rw [countLeave_cons, show isLeave m0 (IdxTask.enter m) = false from rfl,
        if_neg (by simp), Nat.add_zero] at this
      omega
  · intro m0
    dsimp only
    rw [List.count_append]
    by_cases hx : m0 = m
    · subst hx
      have := hc m0
      rw [hidx] at this
      simp only [Option.isSome_none, Bool.false_eq_true, if_false] at this
      simp [this, List.count_cons]
    · have hthis := hc m0
      have hz : List.count ((false, m0) : Bool × Nat) [(false, m)] = 0 := by
        simp [List.count_cons, hx]
      rw [hz, Nat.add_zero, if_neg hx]
      exact hthis
  · intro m0
    dsimp only
    rw [List.count_append]
    have := hd m0
    have hz : List.count ((true, m0) : Bool × Nat) [(false, m)] = 0 := by
      simp [List.count_singleton]
    omega

/-- Executing the deferred `leave m` action: the invariant guarantees the
module is indexed and not yet `index2`-labelled, and is preserved. -/
theorem IdxInv_leave (g : ModGraph) (m : Nat) (rest : List IdxTask) (st : IdxState)
    (hinv : IdxInv g (IdxTask.leave m :: rest) st) :
    st.index2 m = none ∧
    IdxInv g rest
      { st with
          index2 := fun x =>
            if x = m then some st.nextFreeModuleIndex2 else st.index2 x
          nextFreeModuleIndex2 := st.nextFreeModuleIndex2 + 1
          log := st.log ++ [(true, m)] } := by
  obtain ⟨ha, hb, hc, hd⟩ := hinv
  have hb_m := hb m
  rw [countLeave_cons, if_pos (by simp [isLeave])] at hb_m
  have hi2n : st.index2 m = none := by
    rcases h2 : st.index2 m with _ | v2
    · rfl
    · rw [h2] at hb_m
      by_cases h1 : (st.index m).isSome <;> simp [h1] at hb_m
  have hi1 : (st.index m).isSome = true := by
    by_cases h1 : (st.index m).isSome
    · exact h1
    · rw [hi2n] at hb_m
      simp [h1] at hb_m
  have hcl0 : countLeave rest m = 0 := by
    rw [hi2n, hi1] at hb_m
    simp at hb_m
    omega
  refine ⟨hi2n, ?_, ?_, ?_, ?_⟩
  · intro m0 h0 t ht
    rcases ha m0 h0 t ht with h | ⟨task, htask, hcov⟩
    · exact Or.inl h
    · rcases List.mem_cons.mp htask with rfl | htask
      · simp [taskCov] at hcov
      · exact Or.inr ⟨task, htask, hcov⟩
  · intro m0
    dsimp only
    by_cases hx : m0 = m
    · subst hx
      rw [if_pos rfl]
      simp [hcl0, hi1]
    · rw [if_neg hx]
      have hthis := hb m0
      rw [countLeave_cons, if_neg (by simp [isLeave, Ne.symm hx])] at hthis
      omega
  · intro m0
    dsimp only
    rw [List.count_append]
    have hz : List.count ((false, m0) : Bool × Nat) [(true, m)] = 0 := by
      simp [List.count_cons]
    have hthis := hc m0
    omega
  · intro m0
    dsimp only
    rw [List.count_append]
    by_cases hx : m0 = m
    · subst hx
      have hthis := hd m0
      rw [hi2n] at hthis
      simp only [Option.isSome_none, Bool.false_eq_true, if_false] at hthis
      simp [hthis, List.count_cons]
    · have hthis := hd m0
      have hz : List.count ((true, m0) : Bool × Nat) [(true, m)] = 0 := by
        simp [List.count_cons, hx]
      rw [hz, Nat.add_zero, if_neg hx]
      exact hthis

theorem IdxInv_dep_some (g : ModGraph) (m : Nat) (rest : List IdxTask)
    (st : IdxState) (hinv : IdxInv g (IdxTask.dep (some m) :: rest) st) :
    IdxInv g (IdxTask.enter m :: rest) st := by
  obtain ⟨ha, hb, hc, hd⟩ := hinv
  refine ⟨?_, ?_, hc, hd⟩
  · intro m0 h0 t ht
    rcases ha m0 h0 t ht with h | ⟨task, htask, hcov⟩
    · exact Or.inl h
    · rcases List.mem_cons.mp htask with rfl | htask
      · refine Or.inr ⟨IdxTask.enter m, List.mem_cons_self _ _, ?_⟩
        simpa [taskCov] using hcov
      · exact Or.inr ⟨task, List.mem_cons_of_mem _ htask, hcov⟩
  · intro m0
    have hthis := hb m0
    rw [countLeave_cons, if_neg (by simp [isLeave]), Nat.add_zero] at hthis
    rw [countLeave_cons, if_neg (by simp [isLeave]), Nat.add_zero]
    exact hthis

theorem IdxInv_dep_none (g : ModGraph) (rest : List IdxTask) (st : IdxState)
    (hinv : IdxInv g (IdxTask.dep none :: rest) st) : IdxInv g rest st := by
  obtain ⟨ha, hb, hc, hd⟩ := hinv
  refine ⟨?_, ?_, hc, hd⟩
  · intro m0 h0 t ht
    rcases ha m0 h0 t ht with h | ⟨task, htask, hcov⟩
    · exact Or.inl h
    · rcases List.mem_cons.mp htask with rfl | htask
      · simp [taskCov] at hcov
      · exact Or.inr ⟨task, htask, hcov⟩
  · intro m0
    have hthis := hb m0
    rw [countLeave_cons, if_neg (by simp [isLeave]), Nat.add_zero] at hthis
    exact hthis

theorem IdxInv_blk (g : ModGraph) (b : DepBlock) (rest : List IdxTask)
    (st : IdxState) (hinv : IdxInv g (IdxTask.blk b :: rest) st) :
    IdxInv g (blockPushes b ++ rest) st := by
  obtain ⟨ha, hb, hc, hd⟩ := hinv
  refine ⟨?_, ?_, hc, hd⟩
  · intro m0 h0 t ht
    rcases ha m0 h0 t ht with h | ⟨task, htask, hcov⟩
    · exact Or.inl h
    · rcases List.mem_cons.mp htask with rfl | htask
      · simp only [taskCov] at hcov
        obtain ⟨task', htask', hcov'⟩ := (cov_blockPushes b t).mpr hcov
        exact Or.inr ⟨task', List.mem_append_left _ htask', hcov'⟩
      · exact Or.inr ⟨task, List.mem_append_right _ htask, hcov⟩
  · intro m0
    have hthis := hb m0
    rw [countLeave_cons, if_neg (by simp [isLeave]), Nat.add_zero] at hthis
    rw [countLeave_append, countLeave_blockPushes, Nat.zero_add]
    exact hthis

/-- When a run of `assignIndex`'s loop completes from an invariant state:
existing labels are never changed, every module covered by a pending task
ends up indexed, and the final state satisfies the invariant with an empty
stack (so its labelled modules are closed under successors, `index2` is set
exactly where `index` is, and the log has exactly one event per label). -/
theorem assignIndexRun_final (g : ModGraph) :
    ∀ (fuel : Nat) (stack : List IdxTask) (st F : IdxState),
      IdxInv g stack st →
      assignIndexRun g fuel stack st = some F →
      (∀ m, (st.index m).isSome → F.index m = st.index m) ∧
      (∀ m, (st.index2 m).isSome → F.index2 m = st.index2 m) ∧
      (∀ task ∈ stack, ∀ t ∈ taskCov task, (F.index t).isSome) ∧
      IdxInv g [] F := by
  intro fuel
  induction fuel with
  | zero =>
    intro stack st F hinv hrun
    cases stack with
    | nil =>
      simp only [assignIndexRun] at hrun
      injection hrun with hrun
      subst hrun
      exact ⟨fun m _ => rfl, fun m _ => rfl,
        fun task htask => absurd htask (List.not_mem_nil _), hinv⟩
    | cons task rest =>
      simp only [assignIndexRun] at hrun
      cases hrun
  | succ fuel ih =>
    intro stack st F hinv hrun
    cases stack with
    | nil =>
      simp only [assignIndexRun] at hrun
      injection hrun with hrun
      subst hrun
      exact ⟨fun m _ => rfl, fun m _ => rfl,
        fun task htask => absurd htask (List.not_mem_nil _), hinv⟩
    | cons task rest =>
      simp only [assignIndexRun] at hrun
      cases task with
      | enter m =>
        rcases hm : st.index m with _ | v
        · simp only [hm] at hrun
          have hinv' := IdxInv_assign g m rest st hm hinv
          obtain ⟨A, B, C, D⟩ := ih _ _ F hinv' hrun
          refine ⟨?_, B, ?_, D⟩
          · intro m0 h0
            have hx : m0 ≠ m := by
              intro he
              subst he
              rw [hm] at h0
              simp at h0
            have hA := A m0 (by dsimp only; rw [if_neg hx]; exact h0)
            rw [hA]
            dsimp only
            rw [if_neg hx]
          · intro task htask t ht
            rcases List.mem_cons.mp htask with rfl | htask
            · simp only [taskCov, List.mem_singleton] at ht
              subst ht
              have hFm := A t (by dsimp only; simp)
              rw [hFm]
              dsimp only
              simp
            · exact C task
                (List.mem_append_right _ (List.mem_cons_of_mem _ htask)) t ht
        · simp only [hm] at hrun
          have hinv' := IdxInv_skip g m rest st (by rw [hm]; rfl) hinv
          obtain ⟨A, B, C, D⟩ := ih _ _ F hinv' hrun
          refine ⟨A, B, ?_, D⟩
          intro task htask t ht
          rcases List.mem_cons.mp htask with rfl | htask
          · simp only [taskCov, List.mem_singleton] at ht
            subst ht
            have hA := A t (by rw [hm]; rfl)
            rw [hA, hm]
            rfl
          · exact C task htask t ht
      | leave m =>
        obtain ⟨hi2n, hinv'⟩ := IdxInv_leave g m rest st hinv
        obtain ⟨A, B, C, D⟩ := ih _ _ F hinv' hrun
        refine ⟨A, ?_, ?_, D⟩
        · intro m0 h0
          have hx : m0 ≠ m := by
            intro he
            subst he
            rw [hi2n] at h0
            simp at h0
          have hB := B m0 (by dsimp only; rw [if_neg hx]; exact h0)
          rw [hB]
          dsimp only
          rw [if_neg hx]
        · intro task htask t ht
          rcases List.mem_cons.mp htask with rfl | htask
          · simp [taskCov] at ht
          · exact C task htask t ht
      | dep d =>
        cases d with
        | some m =>
          have hinv' := IdxInv_dep_some g m rest st hinv
          obtain ⟨A, B, C, D⟩ := ih _ _ F hinv' hrun
          refine ⟨A, B, ?_, D⟩
          intro task htask t ht
          rcases List.mem_cons.mp htask with rfl | htask
          · simp only [taskCov, Option.toList_some, List.mem_singleton] at ht
            subst ht
            exact C (IdxTask.enter t) (List.mem_cons_self _ _) t (by simp [taskCov])
          · exact C task (List.mem_cons_of_mem _ htask) t ht
        | none =>
          have hinv' := IdxInv_dep_none g rest st hinv
          obtain ⟨A, B, C, D⟩ := ih _ _ F hinv' hrun
          refine ⟨A, B, ?_, D⟩
          intro task htask t ht
          rcases List.mem_cons.mp htask with rfl | htask
          · simp [taskCov] at ht
          · exact C task htask t ht
      | blk b =>
        have hinv' := IdxInv_blk g b rest st hinv
        obtain ⟨A, B, C, D⟩ := ih _ _ F hinv' hrun
        refine ⟨A, B, ?_, D⟩
        intro task htask t ht
        rcases List.mem_cons.mp htask with rfl | htask
        · simp only [taskCov] at ht
          obtain ⟨task', htask', hcov'⟩ := (cov_blockPushes b t).mpr ht
          exact C task' (List.mem_append_left _ htask') t hcov'
        · exact C task (List.mem_append_right _ htask) t ht

/-- C9: `assignIndex` is idempotent over cyclic graphs.  In a completed run
from the unlabelled state, every module reachable from the root is assigned
`index` and `index2`, each exactly once — the assignment log holds exactly one
`index` event and one `index2` event per labelled module, even when a module
is reached again through a cycle — and running `assignIndex(root)` a second
time on the labelled result returns the state unchanged: no module's `index`
or `index2` changes and `nextFreeModuleIndex` / `nextFreeModuleIndex2` keep
their values. -/
theorem C9_assignIndex_idempotent (g : ModGraph) (root fuel : Nat) (F : IdxState)
    (h : assignIndexRun g fuel [IdxTask.enter root] freshIdx = some F) :
    (∀ m, ReachesG g root m → (F.index m).isSome ∧ (F.index2 m).isSome) ∧
    (∀ m, F.log.count (false, m) = (if (F.index m).isSome then 1 else 0) ∧
          F.log.count (true, m) = (if (F.index2 m).isSome then 1 else 0)) ∧
    (∀ fuel2, assignIndexRun g (fuel2 + 1) [IdxTask.enter root] F = some F) := by
  have hinv0 : IdxInv g [IdxTask.enter root] freshIdx := by
    refine ⟨?_, ?_, ?_, ?_⟩
    · intro m h0
      simp [freshIdx] at h0
    · intro m
      rw [countLeave_cons, if_neg (by simp [isLeave])]
      simp [freshIdx, countLeave]
    · intro m
      simp [freshIdx]
    · intro m
      simp [freshIdx]
  obtain ⟨A, B, C, D⟩ := assignIndexRun_final g fuel _ _ _ hinv0 h
  obtain ⟨Da, Db, Dc, Dd⟩ := D
  have hrootIdx : (F.index root).isSome :=
    C (IdxTask.enter root) (List.mem_cons_self _ _) root (by simp [taskCov])
  have hidx : ∀ m, ReachesG g root m → (F.index m).isSome := by
    rintro m ⟨k, hk⟩
    induction hk with
    | refl => exact hrootIdx
    | tail hsteps hmem ihs =>
      rcases Da _ ihs _ hmem with h' | ⟨task, htask, -⟩
      · exact h'
      · exact absurd htask (List.not_mem_nil _)
  have hidx2 : ∀ m, (F.index m).isSome → (F.index2 m).isSome := by
    intro m hm
    have hDb := Db m
    by_cases h2 : (F.index2 m).isSome
    · exact h2
    · simp [countLeave, hm, h2] at hDb
  refine ⟨fun m hr => ⟨hidx m hr, hidx2 m (hidx m hr)⟩, fun m => ⟨Dc m, Dd m⟩, ?_⟩
  intro fuel2
  obtain ⟨v, hv⟩ := Option.isSome_iff_exists.mp hrootIdx
  simp [assignIndexRun, hv]

/-- Witness for C9 on the cyclic graph `gEx`: the run terminates, labels the
module reached through the cycle, and a second run is the identity. -/
theorem C9_assignIndex_idempotent_witness :
    ∃ F, assignIndexRun gEx 30 [IdxTask.enter 0] freshIdx = some F ∧
      (F.index 2).isSome ∧ (F.index2 2).isSome ∧
      assignIndexRun gEx 5 [IdxTask.enter 0] F = some F := by
  rcases hF : assignIndexRun gEx 30 [IdxTask.enter 0] freshIdx with _ | F
  · have hs : (assignIndexRun gEx 30 [IdxTask.enter 0] freshIdx).isSome = true := by
      decide
    rw [hF] at hs
    cases hs
  · have h01 : (1 : Nat) ∈ succs gEx 0 := by decide
    have h12 : (2 : Nat) ∈ succs gEx 1 := by decide
    have hreach : ReachesG gEx 0 2 :=
      ⟨2, Steps.tail (Steps.tail Steps.refl h01) h12⟩
    have h := C9_assignIndex_idempotent gEx 0 30 F hF
    exact ⟨F, rfl, (h.1 2 hreach).1, (h.1 2 hreach).2, h.2.2 4⟩

/-! ## C4 — phase 2 of `processDependenciesBlocksForChunks`
(Compilation.js:999-1101)

Chunks, blocks and modules are identity tokens (`Nat`);
`availableModules` sets are `Finset Nat`. -/

/-- An edge of the basic chunk graph built in phase 1: `{block, chunk}`. -/
structure Dep2 where
  block : Nat
  chunk : Nat
deriving DecidableEq, Repr

/-- The static data phase 2 consumes: each chunk's module set
(`chunk.modulesIterable` — phase 2 adds no modules to chunks) and the
`chunkDependencies` table built in phase 1 (a missing entry and an empty
entry both end the iteration, so both are the empty list). -/
structure ChunkGraph where
  chunkModules : Nat → Finset Nat
  chunkDependencies : Nat → List Dep2

/-- The mutable state of the phase-2 loop: the FIFO `queue2`, the
`minAvailableModulesMap`, and the connections made in steps 6-7
(`chunk.addBlock` membership, `block.chunks` pushes, `chunk.addChunk`
children, `addParent` parents). -/
structure P2State where
  queue2 : List (Nat × Finset Nat)
  minAvailableModulesMap : List (Nat × Finset Nat)
  chunkBlocks : List (Nat × Nat)
  blockChunksList : List (Nat × Nat)
  chunkChildren : List (Nat × Nat)
  chunkParents : List (Nat × Nat)
deriving DecidableEq

/-- `areModulesAvailable(chunk, availableModules)` (Compilation.js:1009-1015). -/
def areModulesAvailable (g : ChunkGraph) (chunk : Nat)
    (availableModules : Finset Nat) : Bool :=
  g.chunkModules chunk ⊆ availableModules

/-- Steps 6-7 of the loop body (Compilation.js:1070-1086): connect block with
chunk, connect chunk with parent, and collect the target chunk in the
per-item `nextChunks` (a JS `Set`, kept here as an insertion-ordered
duplicate-free list). -/
def p2Connect (chunk : Nat) (acc : P2State × List Nat) (dep : Dep2) :
    P2State × List Nat :=
  let (st, nextChunks) := acc
  let st :=
    if (dep.chunk, dep.block) ∈ st.chunkBlocks then st
    else { st with
            chunkBlocks := st.chunkBlocks ++ [(dep.chunk, dep.block)]
            blockChunksList := st.blockChunksList ++ [(dep.block, dep.chunk)] }
  let st :=
    if (chunk, dep.chunk) ∈ st.chunkChildren then st
    else { st with
            chunkChildren := st.chunkChildren ++ [(chunk, dep.chunk)]
            chunkParents := st.chunkParents ++ [(dep.chunk, chunk)] }
  (st, if dep.chunk ∈ nextChunks then nextChunks else nextChunks ++ [dep.chunk])

/-- Steps 2-8 of the loop body (Compilation.js:1055-1094), entered with the
(possibly shrunk) `availableModules`. -/
def p2Process (g : ChunkGraph) (st : P2State) (chunk : Nat)
    (availableModules : Finset Nat) : P2State :=
  match g.chunkDependencies chunk with
  | [] => st
  | deps =>
    let newAvailableModules := availableModules ∪ g.chunkModules chunk
    let filteredDeps := deps.filter
      (fun dep => ! areModulesAvailable g dep.chunk newAvailableModules)
    let (st1, nextChunks) := filteredDeps.foldl (p2Connect chunk) (st, [])
    { st1 with
        queue2 := st1.queue2 ++ nextChunks.map (fun c => (c, newAvailableModules)) }

/-- One iteration of the phase-2 `while` (Compilation.js:1030-1095): dequeue;
on first visit store a copy of the incoming set and process; else intersect
the stored set in place and skip the item when no element was removed, or
process with the shrunk set.  `none` when the queue is empty (loop exit). -/
def p2Step (g : ChunkGraph) (st : P2State) : Option P2State :=
  match st.queue2 with
  | [] => none
  | (chunk, availableModules) :: rest =>
    match st.minAvailableModulesMap.lookup chunk with
    | none =>
      some (p2Process g
        { st with
            queue2 := rest
            minAvailableModulesMap :=
              setAssoc st.minAvailableModulesMap chunk availableModules }
        chunk availableModules)
    | some minAvailableModules =>
      let shrunk := minAvailableModules.filter (· ∈ availableModules)
      if shrunk = minAvailableModules then
        some { st with queue2 := rest }
      else
        some (p2Process g
          { st with
              queue2 := rest
              minAvailableModulesMap :=
                setAssoc st.minAvailableModulesMap chunk shrunk }
          chunk shrunk)

/-- The phase-2 loop with fuel: iterate `p2Step` until the queue empties. -/
def p2Run (g : ChunkGraph) : Nat → P2State → Option P2State
  | 0, st => if st.queue2 = [] then some st else none
  | fuel + 1, st =>
    match p2Step g st with
    | none => some st
    | some st' => p2Run g fuel st'

/-- The queue seeded from the input chunks with empty availability
(Compilation.js:1003-1006). -/
def p2Init (inputChunks : List Nat) : P2State :=
  ⟨inputChunks.map (fun c => (c, (∅ : Finset Nat))), [], [], [], [], []⟩

theorem p2Connect_queue_minMap (chunk : Nat) (acc : P2State × List Nat) (dep : Dep2) :
    (p2Connect chunk acc dep).1.queue2 = acc.1.queue2 ∧
    (p2Connect chunk acc dep).1.minAvailableModulesMap
      = acc.1.minAvailableModulesMap ∧
    (p2Connect chunk acc dep).2.length ≤ acc.2.length + 1 ∧
    (∀ x ∈ (p2Connect chunk acc dep).2, x ∈ acc.2 ∨ x = dep.chunk) := by
  obtain ⟨st, nextChunks⟩ := acc
  by_cases h1 : (dep.chunk, dep.block) ∈ st.chunkBlocks <;>
    by_cases h3 : dep.chunk ∈ nextChunks <;>
    simp [p2Connect, h1, h3] <;>
    split <;>
    simp_all

theorem p2Connect_foldl (chunk : Nat) (deps : List Dep2) :
    ∀ (st : P2State) (nexts : List Nat),
      (deps.foldl (p2Connect chunk) (st, nexts)).1.queue2 = st.queue2 ∧
      (deps.foldl (p2Connect chunk) (st, nexts)).1.minAvailableModulesMap
        = st.minAvailableModulesMap ∧
      (deps.foldl (p2Connect chunk) (st, nexts)).2.length
        ≤ nexts.length + deps.length ∧
      (∀ x ∈ (deps.foldl (p2Connect chunk) (st, nexts)).2,
        x ∈ nexts ∨ ∃ d ∈ deps, x = d.chunk) := by
  induction deps with
  | nil =>
    intro st nexts
    simp
  | cons dep deps ih =>
    intro st nexts
    rw [List.foldl_cons]
    obtain ⟨hq, hm, hl, hmem⟩ := p2Connect_queue_minMap chunk (st, nexts) dep
    rcases hp : p2Connect chunk (st, nexts) dep with ⟨st', nx'⟩
    rw [hp] at hq hm hl hmem
    obtain ⟨ihq, ihm, ihl, ihmem⟩ := ih st' nx'
    refine ⟨by rw [ihq, hq], by rw [ihm, hm], by simp at hl ⊢; omega, ?_⟩
    intro x hx
    rcases ihmem x hx with hx' | ⟨d, hd, hxd⟩
    · rcases hmem x hx' with h | h
      · exact Or.inl h
      · exact Or.inr ⟨dep, List.mem_cons_self _ _, h⟩
    · exact Or.inr ⟨d, List.mem_cons_of_mem _ hd, hxd⟩

theorem p2Process_spec (g : ChunkGraph) (st : P2State) (chunk : Nat)
    (av : Finset Nat) :
    (p2Process g st chunk av).minAvailableModulesMap
      = st.minAvailableModulesMap ∧
    ∃ nexts : List Nat,
      (p2Process g st chunk av).queue2 =
        st.queue2 ++ nexts.map (fun c => (c, av ∪ g.chunkModules chunk)) ∧
      nexts.length ≤ (g.chunkDependencies chunk).length ∧
      ∀ x ∈ nexts, ∃ d ∈ g.chunkDependencies chunk, x = d.chunk := by
  rcases hdeps : g.chunkDependencies chunk with _ | ⟨d0, drest⟩
  · refine ⟨by simp [p2Process, hdeps], [], by simp [p2Process, hdeps], by simp, ?_⟩
    intro x hx
    simp at hx
  · simp only [p2Process, hdeps]
    obtain ⟨hq, hm, hl, hmem⟩ := p2Connect_foldl chunk
      ((d0 :: drest).filter
        (fun dep => ! areModulesAvailable g dep.chunk (av ∪ g.chunkModules chunk)))
      st []
    rcases hp : ((d0 :: drest).filter
        (fun dep => ! areModulesAvailable g dep.chunk
          (av ∪ g.chunkModules chunk))).foldl (p2Connect chunk) (st, [])
      with ⟨st1, nexts⟩
    rw [hp] at hq hm hl hmem
    refine ⟨?_, nexts, ?_, ?_, ?_⟩
    · simp only [p2Process, hdeps, hp]
      exact hm
    · simp only [p2Process, hdeps, hp]
      rw [hq]
    · have hfl := List.length_filter_le
        (fun dep => ! areModulesAvailable g dep.chunk (av ∪ g.chunkModules chunk))
        (d0 :: drest)
      simp only [List.length_nil, Nat.zero_add] at hl
      omega
    · intro x hx
      rcases hmem x hx with h | ⟨d, hd, hxd⟩
      · simp at h
      · exact ⟨d, List.mem_of_mem_filter hd, hxd⟩

theorem mem_setAssoc {β : Type} (l : List (Nat × β)) (k : Nat) (v : β) :
    ∀ x ∈ setAssoc l k v, x = (k, v) ∨ x ∈ l := by
  induction l with
  | nil =>
    intro x hx
    simp [setAssoc] at hx
    exact Or.inl hx
  | cons hd tl ih =>
    obtain ⟨k0, v0⟩ := hd
    intro x hx
    by_cases h0 : k0 = k
    · simp [setAssoc, h0] at hx
      rcases hx with hx | hx
      · exact Or.inl hx
      · exact Or.inr (List.mem_cons_of_mem _ hx)
    · simp only [setAssoc, if_neg h0, List.mem_cons] at hx
      rcases hx with hx | hx
      · exact Or.inr (by simp [hx])
      · rcases ih x hx with h | h
        · exact Or.inl h
        · exact Or.inr (List.mem_cons_of_mem _ h)

theorem mem_of_lookup_eq_some {β : Type} (l : List (Nat × β)) (k : Nat) (v : β)
    (h : l.lookup k = some v) : (k, v) ∈ l := by
  induction l with
  | nil => simp [List.lookup] at h
  | cons hd tl ih =>
    obtain ⟨k0, v0⟩ := hd
    rw [lookup_cons] at h
    by_cases h0 : k = k0
    · rw [if_pos h0] at h
      injection h with h
      simp [h0, h]
    · rw [if_neg h0] at h
      exact List.mem_cons_of_mem _ (ih h)

/-- Potential of one chunk in the map: an unvisited chunk can still be stored
(worth `MU.card + 1`), a stored set is worth its size. -/
def p2Pot (MU : Finset Nat) (m : List (Nat × Finset Nat)) (c : Nat) : Nat :=
  match m.lookup c with
  | none => MU.card + 1
  | some s => s.card

/-- Total potential over the chunk universe. -/
def p2Phi (Chunks MU : Finset Nat) (m : List (Nat × Finset Nat)) : Nat :=
  Chunks.sum (p2Pot MU m)

/-- Upper bound on how many items a single processed chunk can enqueue. -/
def p2DepBound (g : ChunkGraph) (Chunks : Finset Nat) : Nat :=
  Chunks.sup (fun c => (g.chunkDependencies c).length)

/-- Termination measure for the phase-2 loop. -/
def p2Measure (g : ChunkGraph) (Chunks MU : Finset Nat) (st : P2State) : Nat :=
  p2Phi Chunks MU st.minAvailableModulesMap * (p2DepBound g Chunks + 2)
    + st.queue2.length

/-- Loop invariant: every queued chunk and every stored chunk lies in the
finite chunk universe, and every availability set is drawn from the finite
module universe. -/
def P2Inv (Chunks MU : Finset Nat) (st : P2State) : Prop :=
  (∀ p ∈ st.queue2, p.1 ∈ Chunks ∧ p.2 ⊆ MU) ∧
  (∀ p ∈ st.minAvailableModulesMap, p.1 ∈ Chunks ∧ p.2 ⊆ MU)

theorem p2Pot_setAssoc_self (MU : Finset Nat) (m : List (Nat × Finset Nat))
    (k : Nat) (v : Finset Nat) : p2Pot MU (setAssoc m k v) k = v.card := by
  simp [p2Pot, lookup_setAssoc]

theorem p2Pot_setAssoc_ne (MU : Finset Nat) (m : List (Nat × Finset Nat))
    (k c : Nat) (v : Finset Nat) (h : c ≠ k) :
    p2Pot MU (setAssoc m k v) c = p2Pot MU m c := by
  simp [p2Pot, lookup_setAssoc, h]

theorem p2Phi_setAssoc_lt (Chunks MU : Finset Nat)
    (m : List (Nat × Finset Nat)) (chunk : Nat) (v : Finset Nat)
    (hc : chunk ∈ Chunks) (hlt : v.card < p2Pot MU m chunk) :
    p2Phi Chunks MU (setAssoc m chunk v) < p2Phi Chunks MU m := by
  refine Finset.sum_lt_sum ?_ ⟨chunk, hc, ?_⟩
  · intro c _
    by_cases h : c = chunk
    · subst h
      rw [p2Pot_setAssoc_self]
      exact Nat.le_of_lt hlt
    · rw [p2Pot_setAssoc_ne _ _ _ _ _ h]
  · rw [p2Pot_setAssoc_self]
    exact hlt

theorem p2Process_inv (g : ChunkGraph) (Chunks MU : Finset Nat)
    (st : P2State) (chunk : Nat) (av : Finset Nat)
    (hdep : ∀ c ∈ Chunks, ∀ d ∈ g.chunkDependencies c, d.chunk ∈ Chunks)
    (hmod : ∀ c ∈ Chunks, g.chunkModules c ⊆ MU)
    (hinv : P2Inv Chunks MU st) (hc : chunk ∈ Chunks) (hav : av ⊆ MU) :
    P2Inv Chunks MU (p2Process g st chunk av) := by
  obtain ⟨hm, ⟨nexts, hq, _, hmem⟩⟩ := p2Process_spec g st chunk av
  constructor
  · intro p hp
    rw [hq] at hp
    rcases List.mem_append.mp hp with hp | hp
    · exact hinv.1 p hp
    · rcases List.mem_map.mp hp with ⟨c, hcn, rfl⟩
      obtain ⟨d, hd, rfl⟩ := hmem c hcn
      refine ⟨hdep chunk hc d hd, ?_⟩
      exact Finset.union_subset hav (hmod chunk hc)
  · intro p hp
    rw [hm] at hp
    exact hinv.2 p hp

theorem p2Process_len (g : ChunkGraph) (st : P2State) (chunk : Nat)
    (av : Finset Nat) :
    (p2Process g st chunk av).queue2.length
      ≤ st.queue2.length + (g.chunkDependencies chunk).length := by
  obtain ⟨_, ⟨nexts, hq, hlen, _⟩⟩ := p2Process_spec g st chunk av
  rw [hq]
  simp only [List.length_append, List.length_map]
  omega

theorem p2Step_none (g : ChunkGraph) (st : P2State)
    (h : p2Step g st = none) : st.queue2 = [] := by
  rcases hq : st.queue2 with _ | ⟨⟨chunk, av⟩, rest⟩
  · rfl
  · exfalso
    simp only [p2Step, hq] at h
    rcases hl : st.minAvailableModulesMap.lookup chunk with _ | s
    · rw [hl] at h
      simp at h
    · rw [hl] at h
      by_cases hs : s.filter (· ∈ av) = s
      · simp [hs] at h
      · simp [hs] at h

theorem p2Step_spec (g : ChunkGraph) (Chunks MU : Finset Nat)
    (st st' : P2State)
    (hdep : ∀ c ∈ Chunks, ∀ d ∈ g.chunkDependencies c, d.chunk ∈ Chunks)
    (hmod : ∀ c ∈ Chunks, g.chunkModules c ⊆ MU)
    (hinv : P2Inv Chunks MU st) (hst : p2Step g st = some st') :
    P2Inv Chunks MU st' ∧
      p2Measure g Chunks MU st' < p2Measure g Chunks MU st := by
  rcases hq : st.queue2 with _ | ⟨⟨chunk, av⟩, rest⟩
  · simp [p2Step, hq] at hst
  · obtain ⟨hcC, havMU⟩ := hinv.1 (chunk, av) (by rw [hq]; exact List.mem_cons_self _ _)
    have hrest : ∀ p ∈ rest, p.1 ∈ Chunks ∧ p.2 ⊆ MU := fun p hp =>
      hinv.1 p (by rw [hq]; exact List.mem_cons_of_mem _ hp)
    have hD : (g.chunkDependencies chunk).length ≤ p2DepBound g Chunks :=
      Finset.le_sup (f := fun c => (g.chunkDependencies c).length) hcC
    simp only [p2Step, hq] at hst
    rcases hl : st.minAvailableModulesMap.lookup chunk with _ | s
    · rw [hl] at hst
      rw [Option.some.injEq] at hst
      subst hst
      have hinv1 : P2Inv Chunks MU
          { st with
              queue2 := rest
              minAvailableModulesMap :=
                setAssoc st.minAvailableModulesMap chunk av } := by
        refine ⟨hrest, ?_⟩
        intro p hp
        rcases mem_setAssoc _ _ _ p hp with h | h
        · rw [h]; exact ⟨hcC, havMU⟩
        · exact hinv.2 p h
      refine ⟨p2Process_inv g Chunks MU _ chunk av hdep hmod hinv1 hcC havMU, ?_⟩
      have hmm := (p2Process_spec g
        { st with
            queue2 := rest
            minAvailableModulesMap :=
              setAssoc st.minAvailableModulesMap chunk av } chunk av).1
      have hlen := p2Process_len g
        { st with
            queue2 := rest
            minAvailableModulesMap :=
              setAssoc st.minAvailableModulesMap chunk av } chunk av
      dsimp only at hmm hlen
      have hphi : p2Phi Chunks MU (setAssoc st.minAvailableModulesMap chunk av)
          + 1 ≤ p2Phi Chunks MU st.minAvailableModulesMap := by
        refine p2Phi_setAssoc_lt Chunks MU _ chunk av hcC ?_
        simp only [p2Pot, hl]
        exact Nat.lt_succ_of_le (Finset.card_le_card havMU)
      have key : p2Phi Chunks MU (setAssoc st.minAvailableModulesMap chunk av)
            * (p2DepBound g Chunks + 2) + (p2DepBound g Chunks + 2)
          ≤ p2Phi Chunks MU st.minAvailableModulesMap
            * (p2DepBound g Chunks + 2) := by
        calc p2Phi Chunks MU (setAssoc st.minAvailableModulesMap chunk av)
              * (p2DepBound g Chunks + 2) + (p2DepBound g Chunks + 2)
            = (p2Phi Chunks MU (setAssoc st.minAvailableModulesMap chunk av) + 1)
              * (p2DepBound g Chunks + 2) := by ring
          _ ≤ p2Phi Chunks MU st.minAvailableModulesMap
              * (p2DepBound g Chunks + 2) :=
            Nat.mul_le_mul_right _ hphi
      simp only [p2Measure, hmm, hq, List.length_cons]
      omega
    · rw [hl] at hst
      by_cases hs : s.filter (· ∈ av) = s
      · simp only [hs, if_pos, Option.some.injEq] at hst
        subst hst
        refine ⟨⟨hrest, hinv.2⟩, ?_⟩
        simp only [p2Measure, hq, List.length_cons]
        omega
      · simp only [hs, if_false, Option.some.injEq] at hst
        subst hst
        have hsMU : s ⊆ MU :=
          (hinv.2 (chunk, s) (mem_of_lookup_eq_some _ _ _ hl)).2
        have hshr : s.filter (· ∈ av) ⊆ MU :=
          fun x hx => hsMU (Finset.filter_subset _ s hx)
        have hinv1 : P2Inv Chunks MU
            { st with
                queue2 := rest
                minAvailableModulesMap :=
                  setAssoc st.minAvailableModulesMap chunk (s.filter (· ∈ av)) } := by
          refine ⟨hrest, ?_⟩
          intro p hp
          rcases mem_setAssoc _ _ _ p hp with h | h
          · rw [h]; exact ⟨hcC, hshr⟩
          · exact hinv.2 p h
        refine ⟨p2Process_inv g Chunks MU _ chunk _ hdep hmod hinv1 hcC hshr, ?_⟩
        have hmm := (p2Process_spec g
          { st with
              queue2 := rest
              minAvailableModulesMap :=
                setAssoc st.minAvailableModulesMap chunk (s.filter (· ∈ av)) }
          chunk (s.filter (· ∈ av))).1
        have hlen := p2Process_len g
          { st with
              queue2 := rest
              minAvailableModulesMap :=
                setAssoc st.minAvailableModulesMap chunk (s.filter (· ∈ av)) }
          chunk (s.filter (· ∈ av))
        dsimp only at hmm hlen
        have hphi : p2Phi Chunks MU
              (setAssoc st.minAvailableModulesMap chunk (s.filter (· ∈ av)))
            + 1 ≤ p2Phi Chunks MU st.minAvailableModulesMap := by
          refine p2Phi_setAssoc_lt Chunks MU _ chunk _ hcC ?_
          simp only [p2Pot, hl]
          exact Finset.card_lt_card
            (lt_of_le_of_ne (Finset.filter_subset _ s) hs)
        have key : p2Phi Chunks MU
                (setAssoc st.minAvailableModulesMap chunk (s.filter (· ∈ av)))
              * (p2DepBound g Chunks + 2) + (p2DepBound g Chunks + 2)
            ≤ p2Phi Chunks MU st.minAvailableModulesMap
              * (p2DepBound g Chunks + 2) := by
          calc p2Phi Chunks MU
                (setAssoc st.minAvailableModulesMap chunk (s.filter (· ∈ av)))
                * (p2DepBound g Chunks + 2) + (p2DepBound g Chunks + 2)
              = (p2Phi Chunks MU
                  (setAssoc st.minAvailableModulesMap chunk (s.filter (· ∈ av)))
                  + 1) * (p2DepBound g Chunks + 2) := by ring
            _ ≤ p2Phi Chunks MU st.minAvailableModulesMap
                * (p2DepBound g Chunks + 2) :=
              Nat.mul_le_mul_right _ hphi
        simp only [p2Measure, hmm, hq, List.length_cons]
        omega

theorem p2Run_some_queue_nil (g : ChunkGraph) :
    ∀ (fuel : Nat) (st st' : P2State),
      p2Run g fuel st = some st' → st'.queue2 = [] := by
  intro fuel
  induction fuel with
  | zero =>
    intro st st' h
    simp only [p2Run] at h
    by_cases hq : st.queue2 = []
    · rw [if_pos hq, Option.some.injEq] at h
      subst h
      exact hq
    · rw [if_neg hq] at h
      cases h
  | succ n ih =>
    intro st st' h
    simp only [p2Run] at h
    rcases hstep : p2Step g st with _ | st1
    · rw [hstep, Option.some.injEq] at h
      subst h
      exact p2Step_none g _ hstep
    · rw [hstep] at h
      exact ih st1 st' h

theorem p2Run_terminates (g : ChunkGraph) (Chunks MU : Finset Nat)
    (hdep : ∀ c ∈ Chunks, ∀ d ∈ g.chunkDependencies c, d.chunk ∈ Chunks)
    (hmod : ∀ c ∈ Chunks, g.chunkModules c ⊆ MU) :
    ∀ (n : Nat) (st : P2State), P2Inv Chunks MU st →
      p2Measure g Chunks MU st ≤ n → ∃ st', p2Run g n st = some st' := by
  intro n
  induction n with
  | zero =>
    intro st _ hm
    simp only [p2Measure] at hm
    have hq : st.queue2 = [] := List.length_eq_zero.mp (by omega)
    exact ⟨st, by simp [p2Run, hq]⟩
  | succ n ih =>
    intro st hinv hm
    rcases hstep : p2Step g st with _ | st1
    · exact ⟨st, by simp [p2Run, hstep]⟩
    · obtain ⟨hinv1, hlt⟩ := p2Step_spec g Chunks MU st st1 hdep hmod hinv hstep
      have hm1 : p2Measure g Chunks MU st1 ≤ n := by omega
      obtain ⟨st', h⟩ := ih st1 hinv1 hm1
      exact ⟨st', by simp [p2Run, hstep, h]⟩

theorem p2Step_shrink (g : ChunkGraph) (st st' : P2State)
    (hst : p2Step g st = some st') (c : Nat) (s s' : Finset Nat)
    (holds : st.minAvailableModulesMap.lookup c = some s)
    (hnew : st'.minAvailableModulesMap.lookup c = some s') : s' ⊆ s := by
  rcases hq : st.queue2 with _ | ⟨⟨chunk, av⟩, rest⟩
  · simp [p2Step, hq] at hst
  · simp only [p2Step, hq] at hst
    rcases hl : st.minAvailableModulesMap.lookup chunk with _ | s0
    · rw [hl, Option.some.injEq] at hst
      subst hst
      rw [(p2Process_spec g _ chunk av).1] at hnew
      dsimp only at hnew
      rw [lookup_setAssoc] at hnew
      by_cases hc : c = chunk
      · subst hc
        rw [holds] at hl
        cases hl
      · rw [if_neg hc, holds, Option.some.injEq] at hnew
        rw [hnew]
    · rw [hl] at hst
      by_cases hfs : s0.filter (· ∈ av) = s0
      · simp only [hfs, if_pos, Option.some.injEq] at hst
        subst hst
        dsimp only at hnew
        rw [holds, Option.some.injEq] at hnew
        rw [hnew]
      · simp only [hfs, if_false, Option.some.injEq] at hst
        subst hst
        rw [(p2Process_spec g _ chunk _).1] at hnew
        dsimp only at hnew
        rw [lookup_setAssoc] at hnew
        by_cases hc : c = chunk
        · subst hc
          rw [holds, Option.some.injEq] at hl
          subst hl
          rw [if_pos rfl, Option.some.injEq] at hnew
          rw [← hnew]
          exact Finset.filter_subset _ s
        · rw [if_neg hc, holds, Option.some.injEq] at hnew
          rw [hnew]

theorem p2Step_skip (g : ChunkGraph) (st : P2State) (chunk : Nat)
    (av : Finset Nat) (rest : List (Nat × Finset Nat)) (s : Finset Nat)
    (hq : st.queue2 = (chunk, av) :: rest)
    (hl : st.minAvailableModulesMap.lookup chunk = some s)
    (hsub : s ⊆ av) :
    p2Step g st = some { st with queue2 := rest } := by
  have hfs : s.filter (· ∈ av) = s :=
    Finset.filter_eq_self.mpr (fun x hx => hsub hx)
  simp [p2Step, hq, hl, hfs]

/-- **C4.** Over every finite chunk-dependency graph produced by phase 1
(cycles allowed: `Chunks` is a finite chunk universe closed under
`chunkDependencies` targets, with every chunk module set drawn from the
finite module universe `MU`), the phase-2 loop of
`processDependenciesBlocksForChunks` terminates: the run from the seeded
queue completes with an empty queue within `p2Measure` iterations; any step
only ever shrinks a chunk's stored set in `minAvailableModulesMap` (elements
are removed, never added); and a dequeued item whose intersection step
removes no element is skipped, with the step merely dropping the item —
nothing is enqueued and the rest of the state is untouched. -/
theorem C4_phase2 (g : ChunkGraph) (Chunks MU : Finset Nat)
    (inputChunks : List Nat)
    (hdep : ∀ c ∈ Chunks, ∀ d ∈ g.chunkDependencies c, d.chunk ∈ Chunks)
    (hmod : ∀ c ∈ Chunks, g.chunkModules c ⊆ MU)
    (hin : ∀ c ∈ inputChunks, c ∈ Chunks) :
    (∃ st', p2Run g (p2Measure g Chunks MU (p2Init inputChunks))
        (p2Init inputChunks) = some st' ∧ st'.queue2 = []) ∧
    (∀ st st', p2Step g st = some st' →
      ∀ c s s', st.minAvailableModulesMap.lookup c = some s →
        st'.minAvailableModulesMap.lookup c = some s' → s' ⊆ s) ∧
    (∀ st chunk av rest s, st.queue2 = (chunk, av) :: rest →
      st.minAvailableModulesMap.lookup chunk = some s → s ⊆ av →
      p2Step g st = some { st with queue2 := rest }) := by
  refine ⟨?_, ?_, ?_⟩
  · have hinit : P2Inv Chunks MU (p2Init inputChunks) := by
      constructor
      · intro p hp
        simp only [p2Init, List.mem_map] at hp
        obtain ⟨c, hc, rfl⟩ := hp
        exact ⟨hin c hc, Finset.empty_subset MU⟩
      · intro p hp
        simp [p2Init] at hp
    obtain ⟨st', h⟩ := p2Run_terminates g Chunks MU hdep hmod _ _ hinit le_rfl
    exact ⟨st', h, p2Run_some_queue_nil g _ _ _ h⟩
  · intro st st' hst c s s' h1 h2
    exact p2Step_shrink g st st' hst c s s' h1 h2
  · intro st chunk av rest s h1 h2 h3
    exact p2Step_skip g st chunk av rest s h1 h2 h3

/-- A concrete cyclic chunk graph: chunk 0 (modules `{0}`) depends on chunk 1
(modules `{1}`) through block 10, and chunk 1 depends back on chunk 0
through block 11. -/
def gC4 : ChunkGraph :=
  ⟨fun c => if c = 0 then {0} else if c = 1 then {1} else ∅,
   fun c => if c = 0 then [⟨10, 1⟩] else if c = 1 then [⟨11, 0⟩] else []⟩

theorem C4_phase2_witness :
    ∃ st', p2Run gC4 (p2Measure gC4 {0, 1} {0, 1} (p2Init [0]))
        (p2Init [0]) = some st' ∧ st'.queue2 = [] :=
  (C4_phase2 gC4 {0, 1} {0, 1} [0] (by decide) (by decide) (by decide)).1
